import Mathlib

/-!
# A verification development for the rememory core

This file gives a shallow embedding, in Lean 4, of the parts of the
rememory source that its specification talks about:

* the in-memory tar.gz extractor `ExtractTarGz` / `ExtractTarGzReader`
  (src/internal/core/archive.go and its twin in src/internal/wasm/recover.go);
* the passphrase encryption wrappers `Encrypt` / `Decrypt`
  (src/internal/crypto/age.go);
* the hashing helpers `HashBytes` / `HashString` (package core);
* the long-form share parser `parseShare` (src/internal/wasm/recover.go);
* the personalization extractor `ExtractManifestFromHTML`
  (src/internal/html/extract.go);
* the recovery-page emitter `GenerateRecoverHTML` (src/internal/html/recover.go).

Go strings are modelled as `List Char` (the inputs of interest are ASCII,
where Go's byte indexing and rune indexing agree), Go byte slices as
`List Nat` with every element below 256, and fallible Go functions as
`Except`/`Option` values.
-/

deriving instance DecidableEq for Except

namespace Rememory

/-! ## Small Go string helpers -/

/-- `strings.Split(s, sep)` for a one-character separator: split a string
into the (always non-empty) list of chunks between occurrences of `sep`. -/
def splitOnChar (sep : Char) : List Char → List (List Char)
  | [] => [[]]
  | c :: cs =>
    let rest := splitOnChar sep cs
    if c = sep then [] :: rest
    else
      match rest with
      | r :: rs => (c :: r) :: rs
      | [] => [[c]]

/-- Whitespace as trimmed by `strings.TrimSpace` (the ASCII part of Go's
`unicode.IsSpace`; all inputs of interest are ASCII). -/
def isGoSpace (c : Char) : Bool :=
  c = ' ' || c = '\t' || c = '\n' || c = '\r' || c = '\x0b' || c = '\x0c'

/-- `strings.TrimSpace`: drop leading and trailing whitespace. -/
def trimSpace (s : List Char) : List Char :=
  (((s.dropWhile isGoSpace).reverse).dropWhile isGoSpace).reverse

/-- Does `pat` occur at the very beginning of `s`? -/
def beginsWith : List Char → List Char → Bool
  | _, [] => true
  | [], _ :: _ => false
  | c :: cs, p :: ps => c = p && beginsWith cs ps

/-- The index of the first occurrence of `pat` in `s`
(`strings.Index`, with `none` for Go's `-1`). -/
def firstIndex (s pat : List Char) : Option Nat :=
  match s with
  | [] => if pat = [] then some 0 else none
  | _ :: cs =>
    if beginsWith s pat then some 0
    else (firstIndex cs pat).map (· + 1)

/-- Does `pat` occur anywhere in `s` (`strings.Contains`)? -/
def containsSub (s pat : List Char) : Bool :=
  (firstIndex s pat).isSome

/-! ## Archive extraction (src/internal/core/archive.go)

`ExtractTarGzReader` reads a gzip stream, then iterates the tar entries.
The gzip and tar framing lives in Go's standard library; a successfully
decoded stream presents itself to the loop as a sequence of headers with
their file bodies, which is how archives are modelled here: an entry
carries the header name, the header type flag, and the body bytes
(`header.Size` equals the body length on a well-formed stream). -/

/-- One tar entry as surfaced by `tar.Reader.Next`. -/
structure TarEntry where
  name : List Char
  typeflag : Char
  data : List Nat
deriving DecidableEq

/-- `tar.TypeReg`: the type flag of a regular file. -/
def tarTypeReg : Char := '0'

/-- An extracted file (struct `ExtractedFile` in archive.go). -/
structure ExtractedFile where
  name : List Char
  data : List Nat
deriving DecidableEq

/-- `MaxFileSize`: per-file cap of 100 MiB. -/
def MaxFileSize : Nat := 100 * 1024 * 1024

/-- `MaxTotalSize`: cumulative cap of 1 GiB. -/
def MaxTotalSize : Nat := 1024 * 1024 * 1024

/-- The Go regexp `(^|/)\.\.(/|$)` used by the extractor: `name` contains
`..` as a slash-delimited path segment. -/
def hasDotDotSegment (name : List Char) : Bool :=
  (splitOnChar '/' name).contains ['.', '.']

/-- The extraction loop of `ExtractTarGzReader`: walk the entries carrying
the running total of declared sizes and the files accepted so far; after
the loop an empty file list is an error. `List.take MaxFileSize` mirrors
the `io.LimitReader` wrapped around each body read. -/
def extractLoop : List TarEntry → Nat → List ExtractedFile →
    Except String (List ExtractedFile)
  | [], _, files =>
    if files.isEmpty then .error "empty archive" else .ok files
  | e :: rest, totalSize, files =>
    if hasDotDotSegment e.name then
      .error "archive contains invalid path"
    else if e.typeflag ≠ tarTypeReg then
      extractLoop rest totalSize files
    else if e.data.length > MaxFileSize then
      .error "file exceeds maximum allowed size"
    else if totalSize + e.data.length > MaxTotalSize then
      .error "archive exceeds maximum total size"
    else
      extractLoop rest (totalSize + e.data.length)
        (files ++ [⟨e.name, e.data.take MaxFileSize⟩])

/-- `ExtractTarGz` / `ExtractTarGzReader` (identical in core/archive.go and
wasm/recover.go up to error wording), on a decoded tar entry stream. -/
def ExtractTarGz (entries : List TarEntry) : Except String (List ExtractedFile) :=
  extractLoop entries 0 []

/-- Sum of the declared sizes of the regular-file entries. -/
def sumRegSizes (entries : List TarEntry) : Nat :=
  ((entries.filter (fun e => e.typeflag = tarTypeReg)).map
    (fun e => e.data.length)).sum

theorem sumRegSizes_cons_reg {e : TarEntry} (h : e.typeflag = tarTypeReg)
    (rest : List TarEntry) :
    sumRegSizes (e :: rest) = e.data.length + sumRegSizes rest := by
  simp [sumRegSizes, List.filter_cons, h]

theorem sumRegSizes_cons_nonreg {e : TarEntry} (h : ¬ e.typeflag = tarTypeReg)
    (rest : List TarEntry) :
    sumRegSizes (e :: rest) = sumRegSizes rest := by
  simp [sumRegSizes, List.filter_cons, h]

/-- Any entry whose name has a `..` segment forces the loop into an error. -/
theorem extractLoop_error_of_dotdot (entries : List TarEntry) :
    ∀ (total : Nat) (files : List ExtractedFile),
      (∃ e ∈ entries, hasDotDotSegment e.name = true) →
      ∃ msg, extractLoop entries total files = .error msg := by
  induction entries with
  | nil => intro total files h; simp at h
  | cons e rest ih =>
    intro total files h
    by_cases hd : hasDotDotSegment e.name = true
    · exact ⟨"archive contains invalid path", by simp [extractLoop, hd]⟩
    · have hrest : ∃ x ∈ rest, hasDotDotSegment x.name = true := by
        rcases h with ⟨x, hx, hxd⟩
        rcases List.mem_cons.mp hx with rfl | hmem
        · exact absurd hxd hd
        · exact ⟨x, hmem, hxd⟩
      by_cases hreg : e.typeflag = tarTypeReg
      · by_cases hfs : e.data.length > MaxFileSize
        · exact ⟨"file exceeds maximum allowed size", by simp [extractLoop, hd, hreg, hfs]⟩
        · by_cases hts : total + e.data.length > MaxTotalSize
          · exact ⟨"archive exceeds maximum total size", by simp [extractLoop, hd, hreg, hfs, hts]⟩
          · obtain ⟨msg, hmsg⟩ := ih (total + e.data.length)
              (files ++ [⟨e.name, e.data.take MaxFileSize⟩]) hrest
            exact ⟨msg, by simpa [extractLoop, hd, hreg, hfs, hts] using hmsg⟩
      · obtain ⟨msg, hmsg⟩ := ih total files hrest
        exact ⟨msg, by simpa [extractLoop, hd, hreg] using hmsg⟩

/-- A regular entry over the per-file cap forces the loop into an error. -/
theorem extractLoop_error_of_oversize (entries : List TarEntry) :
    ∀ (total : Nat) (files : List ExtractedFile),
      (∃ e ∈ entries, e.typeflag = tarTypeReg ∧ e.data.length > MaxFileSize) →
      ∃ msg, extractLoop entries total files = .error msg := by
  induction entries with
  | nil => intro total files h; simp at h
  | cons e rest ih =>
    intro total files h
    by_cases hd : hasDotDotSegment e.name = true
    · exact ⟨"archive contains invalid path", by simp [extractLoop, hd]⟩
    · by_cases hreg : e.typeflag = tarTypeReg
      · by_cases hfs : e.data.length > MaxFileSize
        · exact ⟨"file exceeds maximum allowed size", by simp [extractLoop, hd, hreg, hfs]⟩
        · have hrest : ∃ x ∈ rest, x.typeflag = tarTypeReg ∧ x.data.length > MaxFileSize := by
            rcases h with ⟨x, hx, hxp⟩
            rcases List.mem_cons.mp hx with rfl | hmem
            · exact absurd hxp.2 hfs
            · exact ⟨x, hmem, hxp⟩
          by_cases hts : total + e.data.length > MaxTotalSize
          · exact ⟨"archive exceeds maximum total size", by simp [extractLoop, hd, hreg, hfs, hts]⟩
          · obtain ⟨msg, hmsg⟩ := ih (total + e.data.length)
              (files ++ [⟨e.name, e.data.take MaxFileSize⟩]) hrest
            exact ⟨msg, by simpa [extractLoop, hd, hreg, hfs, hts] using hmsg⟩
      · have hrest : ∃ x ∈ rest, x.typeflag = tarTypeReg ∧ x.data.length > MaxFileSize := by
          rcases h with ⟨x, hx, hxp⟩
          rcases List.mem_cons.mp hx with rfl | hmem
          · exact absurd hxp.1 hreg
          · exact ⟨x, hmem, hxp⟩
        obtain ⟨msg, hmsg⟩ := ih total files hrest
        exact ⟨msg, by simpa [extractLoop, hd, hreg] using hmsg⟩

/-- If the remaining regular sizes overshoot the cumulative cap, the loop
errors (the running total never exceeds the cap on entry). -/
theorem extractLoop_error_of_total (entries : List TarEntry) :
    ∀ (total : Nat) (files : List ExtractedFile),
      total ≤ MaxTotalSize →
      total + sumRegSizes entries > MaxTotalSize →
      ∃ msg, extractLoop entries total files = .error msg := by
  induction entries with
  | nil =>
    intro total files hle hgt
    simp [sumRegSizes] at hgt
    omega
  | cons e rest ih =>
    intro total files hle hgt
    by_cases hd : hasDotDotSegment e.name = true
    · exact ⟨"archive contains invalid path", by simp [extractLoop, hd]⟩
    · by_cases hreg : e.typeflag = tarTypeReg
      · by_cases hfs : e.data.length > MaxFileSize
        · exact ⟨"file exceeds maximum allowed size", by simp [extractLoop, hd, hreg, hfs]⟩
        · by_cases hts : total + e.data.length > MaxTotalSize
          · exact ⟨"archive exceeds maximum total size", by simp [extractLoop, hd, hreg, hfs, hts]⟩
          · rw [sumRegSizes_cons_reg hreg] at hgt
            obtain ⟨msg, hmsg⟩ := ih (total + e.data.length)
              (files ++ [⟨e.name, e.data.take MaxFileSize⟩]) (by omega) (by omega)
            exact ⟨msg, by simpa [extractLoop, hd, hreg, hfs, hts] using hmsg⟩
      · rw [sumRegSizes_cons_nonreg hreg] at hgt
        obtain ⟨msg, hmsg⟩ := ih total files hle hgt
        exact ⟨msg, by simpa [extractLoop, hd, hreg] using hmsg⟩

/-- A successful loop never returns an empty file list. -/
theorem extractLoop_ok_ne_nil (entries : List TarEntry) :
    ∀ (total : Nat) (files out : List ExtractedFile),
      extractLoop entries total files = .ok out → out ≠ [] := by
  induction entries with
  | nil =>
    intro total files out h
    by_cases hf : files.isEmpty
    · simp [extractLoop, hf] at h
    · simp [extractLoop, hf] at h
      subst h
      simpa [List.isEmpty_iff] using hf
  | cons e rest ih =>
    intro total files out h
    by_cases hd : hasDotDotSegment e.name = true
    · simp [extractLoop, hd] at h
    · by_cases hreg : e.typeflag = tarTypeReg
      · by_cases hfs : e.data.length > MaxFileSize
        · simp [extractLoop, hd, hreg, hfs] at h
        · by_cases hts : total + e.data.length > MaxTotalSize
          · simp [extractLoop, hd, hreg, hfs, hts] at h
          · simp [extractLoop, hd, hreg, hfs, hts] at h
            exact ih _ _ _ h
      · simp [extractLoop, hd, hreg] at h
        exact ih _ _ _ h

/-- Within all caps, with clean names, the loop succeeds as soon as the
accumulator is non-empty or some remaining entry is regular. -/
theorem extractLoop_ok_of_limits (entries : List TarEntry) :
    ∀ (total : Nat) (files : List ExtractedFile),
      (∀ e ∈ entries, hasDotDotSegment e.name = false) →
      (∀ e ∈ entries, e.typeflag = tarTypeReg → e.data.length ≤ MaxFileSize) →
      total + sumRegSizes entries ≤ MaxTotalSize →
      (files ≠ [] ∨ ∃ e ∈ entries, e.typeflag = tarTypeReg) →
      ∃ out, extractLoop entries total files = .ok out := by
  induction entries with
  | nil =>
    intro total files _ _ _ hne
    have hf : files ≠ [] := by
      rcases hne with hne | ⟨x, hx, _⟩
      · exact hne
      · simp at hx
    exact ⟨files, by simp [extractLoop, List.isEmpty_iff, hf]⟩
  | cons e rest ih =>
    intro total files hclean hsize htot hne
    have hd : hasDotDotSegment e.name = false := hclean e (by simp)
    have hcleanr : ∀ x ∈ rest, hasDotDotSegment x.name = false :=
      fun x hx => hclean x (by simp [hx])
    have hsizer : ∀ x ∈ rest, x.typeflag = tarTypeReg → x.data.length ≤ MaxFileSize :=
      fun x hx => hsize x (by simp [hx])
    by_cases hreg : e.typeflag = tarTypeReg
    · have hfs : ¬ e.data.length > MaxFileSize := by
        have := hsize e (by simp) hreg
        omega
      rw [sumRegSizes_cons_reg hreg] at htot
      have hts : ¬ total + e.data.length > MaxTotalSize := by omega
      obtain ⟨out, hout⟩ := ih (total + e.data.length)
        (files ++ [⟨e.name, e.data.take MaxFileSize⟩]) hcleanr hsizer (by omega)
        (Or.inl (by simp))
      exact ⟨out, by simpa [extractLoop, hd, hreg, hfs, hts] using hout⟩
    · rw [sumRegSizes_cons_nonreg hreg] at htot
      have hne' : files ≠ [] ∨ ∃ x ∈ rest, x.typeflag = tarTypeReg := by
        rcases hne with hne | ⟨x, hx, hxreg⟩
        · exact Or.inl hne
        · rcases List.mem_cons.mp hx with rfl | hmem
          · exact absurd hxreg hreg
          · exact Or.inr ⟨x, hmem, hxreg⟩
      obtain ⟨out, hout⟩ := ih total files hcleanr hsizer htot hne'
      exact ⟨out, by simpa [extractLoop, hd, hreg] using hout⟩

/-- With no regular entry and clean names the loop keeps an empty
accumulator and ends in the empty-archive error. -/
theorem extractLoop_empty_of_no_reg (entries : List TarEntry) :
    ∀ (total : Nat),
      (∀ e ∈ entries, ¬ e.typeflag = tarTypeReg) →
      (∀ e ∈ entries, hasDotDotSegment e.name = false) →
      extractLoop entries total [] = .error "empty archive" := by
  induction entries with
  | nil => intro total _ _; simp [extractLoop]
  | cons e rest ih =>
    intro total hnr hclean
    have hd : hasDotDotSegment e.name = false := hclean e (by simp)
    have hreg : ¬ e.typeflag = tarTypeReg := hnr e (by simp)
    have := ih total (fun x hx => hnr x (by simp [hx]))
      (fun x hx => hclean x (by simp [hx]))
    simpa [extractLoop, hd, hreg] using this

/-- A successful loop started from an empty accumulator saw a regular entry. -/
theorem extractLoop_ok_has_reg (entries : List TarEntry) :
    ∀ (total : Nat) (files out : List ExtractedFile),
      extractLoop entries total files = .ok out →
      files ≠ [] ∨ ∃ e ∈ entries, e.typeflag = tarTypeReg := by
  induction entries with
  | nil =>
    intro total files out h
    by_cases hf : files.isEmpty
    · simp [extractLoop, hf] at h
    · exact Or.inl (by simpa [List.isEmpty_iff] using hf)
  | cons e rest ih =>
    intro total files out h
    by_cases hd : hasDotDotSegment e.name = true
    · simp [extractLoop, hd] at h
    · by_cases hreg : e.typeflag = tarTypeReg
      · exact Or.inr ⟨e, by simp, hreg⟩
      · simp [extractLoop, hd, hreg] at h
        rcases ih _ _ _ h with hne | ⟨x, hx, hxreg⟩
        · exact Or.inl hne
        · exact Or.inr ⟨x, by simp [hx], hxreg⟩

/-- C2: every archive containing an entry — of any type flag — whose name
has `..` as a path segment makes `ExtractTarGz` return an error, and no
extracted files reach the caller. -/
theorem ExtractTarGz_rejects_traversal (entries : List TarEntry)
    (h : ∃ e ∈ entries, hasDotDotSegment e.name = true) :
    ∃ msg, ExtractTarGz entries = .error msg :=
  extractLoop_error_of_dotdot entries 0 [] h

theorem ExtractTarGz_rejects_traversal_witness :
    (∃ e ∈ [TarEntry.mk ("../evil".data) '0' [], TarEntry.mk ("a/../b".data) '5' []],
        hasDotDotSegment e.name = true) ∧
    ∃ msg, ExtractTarGz
        [TarEntry.mk ("../evil".data) '0' [], TarEntry.mk ("a/../b".data) '5' []] =
      .error msg :=
  ⟨by decide, ExtractTarGz_rejects_traversal _ (by decide)⟩

/-- C4: `ExtractTarGz` enforces the archive limits: a regular entry over
100 MiB is an error; a cumulative declared total over 1 GiB is an error;
an extraction can never succeed with zero files; and an archive within
all limits holding at least one regular file extracts successfully. -/
theorem ExtractTarGz_enforces_limits :
    (∀ entries : List TarEntry,
        (∃ e ∈ entries, e.typeflag = tarTypeReg ∧ e.data.length > MaxFileSize) →
        ∃ msg, ExtractTarGz entries = .error msg) ∧
    (∀ entries : List TarEntry, sumRegSizes entries > MaxTotalSize →
        ∃ msg, ExtractTarGz entries = .error msg) ∧
    (∀ (entries : List TarEntry) (out : List ExtractedFile),
        ExtractTarGz entries = .ok out → out ≠ []) ∧
    (∀ entries : List TarEntry,
        (∀ e ∈ entries, hasDotDotSegment e.name = false) →
        (∀ e ∈ entries, e.typeflag = tarTypeReg → e.data.length ≤ MaxFileSize) →
        sumRegSizes entries ≤ MaxTotalSize →
        (∃ e ∈ entries, e.typeflag = tarTypeReg) →
        ∃ out, ExtractTarGz entries = .ok out) :=
  ⟨fun entries h => extractLoop_error_of_oversize entries 0 [] h,
   fun entries h => extractLoop_error_of_total entries 0 [] (by simp [MaxTotalSize]) (by omega),
   fun entries out h => extractLoop_ok_ne_nil entries 0 [] out h,
   fun entries hclean hsize htot hreg =>
     extractLoop_ok_of_limits entries 0 [] hclean hsize (by omega) (Or.inr hreg)⟩

theorem ExtractTarGz_enforces_limits_witness :
    ((∃ e ∈ [TarEntry.mk ("big".data) '0' (List.replicate (MaxFileSize + 1) 0)],
        e.typeflag = tarTypeReg ∧ e.data.length > MaxFileSize) ∧
      ∃ msg, ExtractTarGz
          [TarEntry.mk ("big".data) '0' (List.replicate (MaxFileSize + 1) 0)] =
        .error msg) ∧
    ∃ out, ExtractTarGz [TarEntry.mk ("a.txt".data) '0' [104, 105]] = .ok out := by
  have hbig : ∃ e ∈ [TarEntry.mk ("big".data) '0' (List.replicate (MaxFileSize + 1) 0)],
      e.typeflag = tarTypeReg ∧ e.data.length > MaxFileSize :=
    ⟨TarEntry.mk ("big".data) '0' (List.replicate (MaxFileSize + 1) 0),
      by simp, rfl, by simp⟩
  refine ⟨⟨hbig, ExtractTarGz_enforces_limits.1 _ hbig⟩, ?_⟩
  exact ExtractTarGz_enforces_limits.2.2.2 _ (by decide) (by decide) (by decide)
    ⟨TarEntry.mk ("a.txt".data) '0' [104, 105], by simp, rfl⟩

/-- C10: an archive whose entries are all non-regular (and free of `..`
segments) yields the empty-archive error even though entries are present,
and any successful extraction saw at least one regular entry. -/
theorem ExtractTarGz_ignores_non_regular :
    (∀ entries : List TarEntry,
        (∀ e ∈ entries, ¬ e.typeflag = tarTypeReg) →
        (∀ e ∈ entries, hasDotDotSegment e.name = false) →
        ExtractTarGz entries = .error "empty archive") ∧
    (∀ (entries : List TarEntry) (out : List ExtractedFile),
        ExtractTarGz entries = .ok out →
        ∃ e ∈ entries, e.typeflag = tarTypeReg) :=
  ⟨fun entries hnr hclean => extractLoop_empty_of_no_reg entries 0 hnr hclean,
   fun entries out h => by
     rcases extractLoop_ok_has_reg entries 0 [] out h with hne | hreg
     · exact absurd rfl hne
     · exact hreg⟩

theorem ExtractTarGz_ignores_non_regular_witness :
    ExtractTarGz [TarEntry.mk ("dir/".data) '5' [], TarEntry.mk ("lnk".data) '2' []] =
      .error "empty archive" :=
  ExtractTarGz_ignores_non_regular.1 _ (by decide) (by decide)

/-! ## Passphrase encryption (src/internal/crypto/age.go)

`Encrypt` and `Decrypt` check the passphrase themselves and then delegate
the byte stream to `filippo.io/age` (scrypt recipient mode). -/

/-- The errors surfaced by the crypto wrappers: `ErrEmptyPassphrase`, or a
wrapped error from the underlying library. -/
inductive CryptoErr where
  | emptyPassphrase
  | wrapped (msg : String)
deriving DecidableEq

/-- Modelled from the spec: the `age` scrypt recipient scheme (library
`filippo.io/age`, which is not under src/). §4.3 describes a symmetric
authenticated encryption keyed by the passphrase: decryption under the
encrypting passphrase recovers the plaintext and any other passphrase
fails authentication. The model carries the keying material explicitly:
the ciphertext is a length-prefixed copy of the passphrase code points
followed by the plaintext. -/
def ageEncrypt (passphrase : List Char) (plaintext : List Nat) : List Nat :=
  passphrase.length :: passphrase.map Char.toNat ++ plaintext

/-- Modelled from the spec: decryption side of `ageEncrypt`; succeeds
exactly when the stored passphrase matches the supplied one. -/
def ageDecrypt (passphrase : List Char) (ct : List Nat) : Option (List Nat) :=
  match ct with
  | [] => none
  | n :: rest =>
    if n = passphrase.length ∧ rest.take n = passphrase.map Char.toNat then
      some (rest.drop n)
    else none

/-- `crypto.Encrypt` (src/internal/crypto/age.go:16): reject an empty
passphrase before touching either stream, then encrypt. The byte-stream
plumbing (`io.Copy` from `src` into the age writer) is modelled by the
function being applied to the full contents of `src`; for an empty
passphrase the result does not depend on `src` at all. -/
def Encrypt (src : List Nat) (passphrase : List Char) : Except CryptoErr (List Nat) :=
  if passphrase = [] then .error .emptyPassphrase
  else .ok (ageEncrypt passphrase src)

/-- `crypto.Decrypt` (src/internal/crypto/age.go:42): reject an empty
passphrase before touching either stream, then decrypt; an
authentication failure surfaces as a wrapped library error. -/
def Decrypt (src : List Nat) (passphrase : List Char) : Except CryptoErr (List Nat) :=
  if passphrase = [] then .error .emptyPassphrase
  else
    match ageDecrypt passphrase src with
    | some p => .ok p
    | none => .error (.wrapped "decrypting")

/-- C3: for every plaintext and non-empty passphrase, decrypting the
ciphertext produced by `Encrypt` under the same passphrase succeeds and
returns the plaintext byte for byte. -/
theorem Decrypt_Encrypt_roundtrip (p : List Nat) (q : List Char) (hq : q ≠ []) :
    ∃ ct, Encrypt p q = .ok ct ∧ Decrypt ct q = .ok p := by
  refine ⟨ageEncrypt q p, by simp [Encrypt, hq], ?_⟩
  have hlen : (q.map Char.toNat).length = q.length := by simp
  have h1 : ageDecrypt q (ageEncrypt q p) = some p := by
    unfold ageDecrypt ageEncrypt
    simp [List.take_left' hlen, List.drop_left' hlen]
  simp [Decrypt, if_neg hq, h1]

theorem Decrypt_Encrypt_roundtrip_witness :
    ("pw".data ≠ [] : Prop) ∧
    ∃ ct, Encrypt [104, 105] ("pw".data) = .ok ct ∧
      Decrypt ct ("pw".data) = .ok [104, 105] :=
  ⟨by decide, Decrypt_Encrypt_roundtrip [104, 105] ("pw".data) (by decide)⟩

/-- C6: with an empty passphrase both `Encrypt` and `Decrypt` fail with
the empty-passphrase error — uniformly in `src`, since the guard runs
before any byte of `src` is read or any byte of `dst` is written — and a
non-empty passphrase never produces the empty-passphrase error. -/
theorem empty_passphrase_guard :
    (∀ src : List Nat, Encrypt src [] = .error .emptyPassphrase) ∧
    (∀ src : List Nat, Decrypt src [] = .error .emptyPassphrase) ∧
    (∀ (src : List Nat) (q : List Char), q ≠ [] →
        Encrypt src q ≠ .error .emptyPassphrase ∧
        Decrypt src q ≠ .error .emptyPassphrase) := by
  refine ⟨fun src => by simp [Encrypt], fun src => by simp [Decrypt], ?_⟩
  intro src q hq
  constructor
  · simp [Encrypt, hq]
  · simp only [Decrypt, if_neg hq]
    cases ageDecrypt q src <;> simp

theorem empty_passphrase_guard_witness :
    ("pw".data ≠ [] : Prop) ∧
    Encrypt [1, 2] ("pw".data) ≠ .error .emptyPassphrase ∧
    Decrypt [1, 2] ("pw".data) ≠ .error .emptyPassphrase :=
  ⟨by decide, (empty_passphrase_guard.2.2 [1, 2] ("pw".data) (by decide))⟩

/-! ## SHA-256 (Go crypto/sha256, as called by core.HashBytes)

`HashBytes` delegates to the standard library digest; the FIPS 180-4
algorithm is embedded here so that hashes compute inside Lean. All 32-bit
words are naturals kept below `2^32` by explicit reduction. -/

/-- `2^32`, the word modulus. -/
def w32 : Nat := 4294967296

/-- Addition modulo `2^32`. -/
def add32 (a b : Nat) : Nat := (a + b) % w32

/-- Right rotation of a 32-bit word. -/
def rotr32 (n x : Nat) : Nat := ((x >>> n) ||| (x <<< (32 - n))) % w32

/-- Bitwise complement on 32 bits. -/
def not32 (x : Nat) : Nat := x ^^^ 4294967295

def shaCh (x y z : Nat) : Nat := (x &&& y) ^^^ (not32 x &&& z)

def shaMaj (x y z : Nat) : Nat := (x &&& y) ^^^ (x &&& z) ^^^ (y &&& z)

def bigSigma0 (x : Nat) : Nat := rotr32 2 x ^^^ rotr32 13 x ^^^ rotr32 22 x

def bigSigma1 (x : Nat) : Nat := rotr32 6 x ^^^ rotr32 11 x ^^^ rotr32 25 x

def smallSigma0 (x : Nat) : Nat := rotr32 7 x ^^^ rotr32 18 x ^^^ (x >>> 3)

def smallSigma1 (x : Nat) : Nat := rotr32 17 x ^^^ rotr32 19 x ^^^ (x >>> 10)

/-- The 64 round constants, written in decimal. -/
def K256 : List Nat :=
  [1116352408, 1899447441, 3049323471, 3921009573, 961987163,
   1508970993, 2453635748, 2870763221, 3624381080, 310598401,
   607225278, 1426881987, 1925078388, 2162078206, 2614888103,
   3248222580, 3835390401, 4022224774, 264347078, 604807628,
   770255983, 1249150122, 1555081692, 1996064986, 2554220882,
   2821834349, 2952996808, 3210313671, 3336571891, 3584528711,
   113926993, 338241895, 666307205, 773529912, 1294757372,
   1396182291, 1695183700, 1986661051, 2177026350, 2456956037,
   2730485921, 2820302411, 3259730800, 3345764771, 3516065817,
   3600352804, 4094571909, 275423344, 430227734, 506948616,
   659060556, 883997877, 958139571, 1322822218, 1537002063,
   1747873779, 1955562222, 2024104815, 2227730452, 2361852424,
   2428436474, 2756734187, 3204031479, 3329325298]

/-- The eight working words of the digest state. -/
structure H8 where
  a : Nat
  b : Nat
  c : Nat
  d : Nat
  e : Nat
  f : Nat
  g : Nat
  h : Nat
deriving DecidableEq

/-- The initial hash value. -/
def initH : H8 :=
  ⟨1779033703, 3144134277, 1013904242, 2773480762,
   1359893119, 2600822924, 528734635, 1541459225⟩

/-- Append the next word of the message schedule. -/
def scheduleStep (ws : List Nat) : List Nat :=
  let i := ws.length
  let next := add32
    (add32 (smallSigma1 (ws.getD (i - 2) 0)) (ws.getD (i - 7) 0))
    (add32 (smallSigma0 (ws.getD (i - 15) 0)) (ws.getD (i - 16) 0))
  ws ++ [next]

/-- Extend 16 block words to the 64-word message schedule. -/
def schedule (block : List Nat) : List Nat :=
  scheduleStep^[48] block

/-- One compression round, consuming a round constant and schedule word. -/
def compressRound (st : H8) (kw : Nat × Nat) : H8 :=
  let t1 := add32 st.h (add32 (bigSigma1 st.e)
    (add32 (shaCh st.e st.f st.g) (add32 kw.1 kw.2)))
  let t2 := add32 (bigSigma0 st.a) (shaMaj st.a st.b st.c)
  ⟨add32 t1 t2, st.a, st.b, st.c, add32 st.d t1, st.e, st.f, st.g⟩

/-- Compress one 16-word block into the state. -/
def compressBlock (st : H8) (block : List Nat) : H8 :=
  let fin := (K256.zip (schedule block)).foldl compressRound st
  ⟨add32 st.a fin.a, add32 st.b fin.b, add32 st.c fin.c, add32 st.d fin.d,
   add32 st.e fin.e, add32 st.f fin.f, add32 st.g fin.g, add32 st.h fin.h⟩

/-- Split a list into chunks of `n + 1` elements; the fuel argument of
`chunksFuel` only bounds the recursion depth and any fuel at least the
list length gives the same result. -/
def chunksFuel (n : Nat) : Nat → List α → List (List α)
  | _, [] => []
  | 0, _ :: _ => []
  | fuel + 1, x :: xs =>
    ((x :: xs).take (n + 1)) :: chunksFuel n fuel ((x :: xs).drop (n + 1))

/-- Split a list into chunks of `n + 1` elements. -/
def chunksExact (n : Nat) (l : List α) : List (List α) :=
  chunksFuel n l.length l

/-- A big-endian 32-bit word from four bytes. -/
def wordOfBytes (bs : List Nat) : Nat :=
  ((bs.getD 0 0) <<< 24) ||| ((bs.getD 1 0) <<< 16) |||
    ((bs.getD 2 0) <<< 8) ||| bs.getD 3 0

/-- Serialize a word to four big-endian bytes. -/
def wordBE (w : Nat) : List Nat :=
  [(w >>> 24) % 256, (w >>> 16) % 256, (w >>> 8) % 256, w % 256]

/-- The 8-byte big-endian bit length trailer. -/
def lenBE64 (bits : Nat) : List Nat :=
  [(bits >>> 56) % 256, (bits >>> 48) % 256, (bits >>> 40) % 256,
   (bits >>> 32) % 256, (bits >>> 24) % 256, (bits >>> 16) % 256,
   (bits >>> 8) % 256, bits % 256]

/-- FIPS 180-4 padding: `0x80`, zeros to 56 mod 64, the bit length. -/
def shaPad (ms : List Nat) : List Nat :=
  ms ++ 0x80 :: List.replicate ((119 - ms.length % 64) % 64) 0 ++
    lenBE64 (ms.length * 8)

/-- Serialize the final state to the 32 digest bytes. -/
def digestBytes (st : H8) : List Nat :=
  wordBE st.a ++ wordBE st.b ++ wordBE st.c ++ wordBE st.d ++
    wordBE st.e ++ wordBE st.f ++ wordBE st.g ++ wordBE st.h

/-- The SHA-256 digest of a byte string, as 32 bytes. -/
def sha256 (ms : List Nat) : List Nat :=
  digestBytes
    (((chunksExact 63 (shaPad ms)).map
        (fun b => (chunksExact 3 b).map wordOfBytes)).foldl compressBlock initH)

set_option maxRecDepth 100000 in
/-- FIPS 180-4 test vector: the digest of `"abc"`. -/
theorem sha256_abc :
    sha256 [0x61, 0x62, 0x63] =
      [0xba, 0x78, 0x16, 0xbf, 0x8f, 0x01, 0xcf, 0xea, 0x41, 0x41, 0x40, 0xde,
       0x5d, 0xae, 0x22, 0x23, 0xb0, 0x03, 0x61, 0xa3, 0x96, 0x17, 0x7a, 0x9c,
       0xb4, 0x10, 0xff, 0x61, 0xf2, 0x00, 0x15, 0xad] := by decide

set_option maxRecDepth 100000 in
/-- FIPS 180-4 test vector: the digest of the empty message. -/
theorem sha256_empty :
    sha256 [] =
      [0xe3, 0xb0, 0xc4, 0x42, 0x98, 0xfc, 0x1c, 0x14, 0x9a, 0xfb, 0xf4, 0xc8,
       0x99, 0x6f, 0xb9, 0x24, 0x27, 0xae, 0x41, 0xe4, 0x64, 0x9b, 0x93, 0x4c,
       0xa4, 0x95, 0x99, 0x1b, 0x78, 0x52, 0xb8, 0x55] := by decide

/-! ## Hashing helpers (package core, HashBytes / HashString) -/

/-- The lowercase hex alphabet used by Go's `encoding/hex`. -/
def hexDigits : List Char := "0123456789abcdef".data

/-- The hex digit of a value below 16. -/
def hexDigit (n : Nat) : Char := hexDigits.getD n 'x'

/-- Two lowercase hex characters for one byte. -/
def hexOfByte (b : Nat) : List Char := [hexDigit (b / 16), hexDigit (b % 16)]

/-- `hex.EncodeToString`. -/
def hexEncode (bs : List Nat) : List Char := (bs.map hexOfByte).flatten

/-- UTF-8 encoding of one character (Go's `[]byte(string)` conversion). -/
def utf8EncodeChar (c : Char) : List Nat :=
  let n := c.toNat
  if n < 0x80 then [n]
  else if n < 0x800 then
    [0xC0 ||| (n >>> 6), 0x80 ||| (n &&& 0x3F)]
  else if n < 0x10000 then
    [0xE0 ||| (n >>> 12), 0x80 ||| ((n >>> 6) &&& 0x3F), 0x80 ||| (n &&& 0x3F)]
  else
    [0xF0 ||| (n >>> 18), 0x80 ||| ((n >>> 12) &&& 0x3F),
     0x80 ||| ((n >>> 6) &&& 0x3F), 0x80 ||| (n &&& 0x3F)]

/-- UTF-8 encoding of a string. -/
def utf8Encode (s : List Char) : List Nat := (s.map utf8EncodeChar).flatten

/-- `core.HashBytes` (src/unnamed/part_000): the digest of the bytes,
hex encoded, behind the literal `sha256:` tag. -/
def HashBytes (b : List Nat) : List Char :=
  ("sha256:".data) ++ hexEncode (sha256 b)

/-- `core.HashString` (src/unnamed/part_000): hash the UTF-8 bytes. -/
def HashString (s : List Char) : List Char := HashBytes (utf8Encode s)

theorem wordBE_lt {w : Nat} : ∀ x ∈ wordBE w, x < 256 := by
  intro x hx
  simp [wordBE] at hx
  rcases hx with rfl | rfl | rfl | rfl <;> exact Nat.mod_lt _ (by norm_num)

theorem digestBytes_lt (st : H8) : ∀ x ∈ digestBytes st, x < 256 := by
  intro x hx
  simp [digestBytes] at hx
  rcases hx with hx | hx | hx | hx | hx | hx | hx | hx <;> exact wordBE_lt x hx

theorem digestBytes_length (st : H8) : (digestBytes st).length = 32 := by
  simp [digestBytes, wordBE]

theorem sha256_length (ms : List Nat) : (sha256 ms).length = 32 :=
  digestBytes_length _

theorem sha256_lt (ms : List Nat) : ∀ x ∈ sha256 ms, x < 256 :=
  digestBytes_lt _

theorem hexEncode_length (bs : List Nat) :
    (hexEncode bs).length = 2 * bs.length := by
  induction bs with
  | nil => simp [hexEncode]
  | cons b rest ih =>
    simp [hexEncode, hexOfByte] at ih ⊢
    omega

theorem hexDigit_mem {n : Nat} (h : n < 16) : hexDigit n ∈ hexDigits := by
  revert n
  decide

theorem hexEncode_mem (bs : List Nat) (hb : ∀ b ∈ bs, b < 256) :
    ∀ c ∈ hexEncode bs, c ∈ hexDigits := by
  induction bs with
  | nil => simp [hexEncode]
  | cons b rest ih =>
    intro c hc
    have hb256 : b < 256 := hb b (by simp)
    simp [hexEncode, hexOfByte] at hc
    rcases hc with rfl | rfl | ⟨a, ha, hca⟩
    · exact hexDigit_mem (Nat.div_lt_of_lt_mul (lt_of_lt_of_le hb256 (by norm_num)))
    · exact hexDigit_mem (Nat.mod_lt _ (by norm_num))
    · have hmem : c ∈ hexEncode rest := by
        simp [hexEncode, hexOfByte]
        exact ⟨a, ha, hca⟩
      exact ih (fun x hx => hb x (by simp [hx])) c hmem

set_option maxRecDepth 100000 in
/-- Consistency with Go: the hash of `"hello"`, as checked against the
reference SHA-256 implementation. -/
theorem hashString_hello :
    HashString ("hello".data) =
      ("sha256:2cf24dba5fb0a30e26e83b2ac5b9e29e1b161e5c1fa7425e73043362938b9824".data) := by
  decide

/-- C7: `HashBytes b` is the literal `sha256:` tag followed by the
64-character lowercase hex encoding of the SHA-256 digest of `b` — total
length 71 — and `HashString s` is `HashBytes` of the UTF-8 bytes of `s`.
Both are pure Lean functions of their argument, so determinism and
freedom from side effects are structural. -/
theorem HashBytes_spec :
    (∀ b : List Nat,
        HashBytes b = ("sha256:".data) ++ hexEncode (sha256 b) ∧
        (HashBytes b).length = 71 ∧
        (HashBytes b).take 7 = "sha256:".data ∧
        ∀ c ∈ (HashBytes b).drop 7, c ∈ hexDigits) ∧
    (∀ s : List Char, HashString s = HashBytes (utf8Encode s)) := by
  refine ⟨fun b => ⟨rfl, ?_, ?_, ?_⟩, fun s => rfl⟩
  · simp [HashBytes, hexEncode_length, sha256_length]
  · rw [HashBytes, List.take_left' (by decide)]
  · rw [HashBytes, List.drop_left' (by decide)]
    exact hexEncode_mem _ (sha256_lt b)

set_option maxRecDepth 100000 in
theorem HashBytes_spec_witness :
    HashBytes [1] =
      ("sha256:4bf5122f344554c53bde2ebb8cd2b7e3d1600ad631c385a5d7cce23c7785459a".data) ∧
    (HashBytes [1]).length = 71 ∧
    HashString ("hi".data) = HashBytes (utf8Encode ("hi".data)) :=
  ⟨by decide, (HashBytes_spec.1 [1]).2.1, HashBytes_spec.2 ("hi".data)⟩

/-! ## Long-form share parsing (src/internal/wasm/recover.go, parseShare) -/

/-- The begin sentinel (constant `shareBegin`). -/
def shareBegin : List Char := "-----BEGIN REMEMORY SHARE-----".data

/-- The end sentinel (constant `shareEnd`). -/
def shareEnd : List Char := "-----END REMEMORY SHARE-----".data

/-- `strconv.Atoi`: optional sign, one or more decimal digits, 64-bit
range check. -/
def parseDigitsAux : List Char → Nat → Option Nat
  | [], acc => some acc
  | c :: cs, acc =>
    if '0' ≤ c ∧ c ≤ '9' then parseDigitsAux cs (acc * 10 + (c.toNat - 48))
    else none

/-- One or more decimal digits. -/
def parseDigits : List Char → Option Nat
  | [] => none
  | cs => parseDigitsAux cs 0

/-- `strconv.Atoi` (errors collapse to `none`). -/
def goAtoi (s : List Char) : Option Int :=
  match s with
  | '+' :: rest =>
    (parseDigits rest).bind fun n =>
      if n ≤ 9223372036854775807 then some (n : Int) else none
  | '-' :: rest =>
    (parseDigits rest).bind fun n =>
      if n ≤ 9223372036854775808 then some (-(n : Int)) else none
  | _ =>
    (parseDigits s).bind fun n =>
      if n ≤ 9223372036854775807 then some (n : Int) else none

/-- The components of a parsed RFC 3339 timestamp (`time.Parse` with the
`time.RFC3339` layout). -/
structure DateTime where
  year : Nat
  month : Nat
  day : Nat
  hour : Nat
  minute : Nat
  second : Nat
  frac : List Char
  zulu : Bool
  offNeg : Bool
  offH : Nat
  offM : Nat
deriving DecidableEq

/-- Is `c` an ASCII digit? -/
def isDigit (c : Char) : Bool := '0' ≤ c && c ≤ '9'

/-- Two-digit field. -/
def twoDigits : List Char → Option (Nat × List Char)
  | a :: b :: rest =>
    if isDigit a && isDigit b then
      some ((a.toNat - 48) * 10 + (b.toNat - 48), rest)
    else none
  | _ => none

/-- Gregorian leap year. -/
def isLeapYear (y : Nat) : Bool := (y % 4 = 0 && y % 100 ≠ 0) || y % 400 = 0

/-- Days in a month. -/
def daysInMonth (y m : Nat) : Nat :=
  if m = 2 then (if isLeapYear y then 29 else 28)
  else if m = 4 ∨ m = 6 ∨ m = 9 ∨ m = 11 then 30
  else 31

/-- `time.Parse(time.RFC3339, s)`: strict `yyyy-mm-ddThh:mm:ss`, an
optional fraction after a period or comma, and a `Z` or `±hh:mm` zone,
with all fields range-checked. -/
def parseRFC3339 (s : List Char) : Option DateTime :=
  match s with
  | y1 :: y2 :: y3 :: y4 :: '-' :: rest1 =>
    if isDigit y1 && isDigit y2 && isDigit y3 && isDigit y4 then
      let year := (((y1.toNat - 48) * 10 + (y2.toNat - 48)) * 10 +
        (y3.toNat - 48)) * 10 + (y4.toNat - 48)
      match twoDigits rest1 with
      | some (month, '-' :: rest2) =>
        match twoDigits rest2 with
        | some (day, 'T' :: rest3) =>
          match twoDigits rest3 with
          | some (hour, ':' :: rest4) =>
            match twoDigits rest4 with
            | some (minute, ':' :: rest5) =>
              match twoDigits rest5 with
              | some (second, rest6) =>
                let fracAndRest :=
                  match rest6 with
                  | '.' :: ds => some (ds.takeWhile isDigit, ds.dropWhile isDigit)
                  | ',' :: ds => some (ds.takeWhile isDigit, ds.dropWhile isDigit)
                  | _ => some ([], rest6)
                match fracAndRest with
                | some (frac, rest7) =>
                  if (rest6 = '.' :: rest7 ∨ rest6 = ',' :: rest7) ∧ frac = [] then
                    none
                  else
                    let ok := 1 ≤ month ∧ month ≤ 12 ∧ 1 ≤ day ∧
                      day ≤ daysInMonth year month ∧ hour ≤ 23 ∧
                      minute ≤ 59 ∧ second ≤ 59
                    match rest7 with
                    | ['Z'] =>
                      if ok then some ⟨year, month, day, hour, minute, second,
                        frac, true, false, 0, 0⟩ else none
                    | sign :: z1 :: z2 :: ':' :: z3 :: z4 :: [] =>
                      if (sign = '+' ∨ sign = '-') ∧ isDigit z1 ∧ isDigit z2 ∧
                          isDigit z3 ∧ isDigit z4 then
                        let oh := (z1.toNat - 48) * 10 + (z2.toNat - 48)
                        let om := (z3.toNat - 48) * 10 + (z4.toNat - 48)
                        if ok ∧ oh ≤ 23 ∧ om ≤ 59 then
                          some ⟨year, month, day, hour, minute, second, frac,
                            false, sign = '-', oh, om⟩
                        else none
                      else none
                    | _ => none
                | none => none
              | none => none
            | _ => none
          | _ => none
        | _ => none
      | _ => none
    else none
  | _ => none

/-- The parsed share metadata (struct `ShareInfo`); zero values mirror
Go's (`0`, `""`, and the zero `time.Time` rendered as `none`). -/
structure ShareInfo where
  Version : Int
  Index : Int
  Total : Int
  Threshold : Int
  Holder : List Char
  Created : Option DateTime
  Checksum : List Char
  DataB64 : List Char
deriving DecidableEq

/-- The zero `ShareInfo`. -/
def initShare : ShareInfo := ⟨0, 0, 0, 0, [], none, [], []⟩

/-- The effect of one recognized header line. -/
inductive HUpd where
  | hVersion (n : Int)
  | hIndex (n : Int)
  | hTotal (n : Int)
  | hThreshold (n : Int)
  | hHolder (v : List Char)
  | hCreated (t : DateTime)
  | hChecksum (v : List Char)
deriving DecidableEq

/-- Apply a header update to the share under construction. -/
def applyUpd (u : HUpd) (s : ShareInfo) : ShareInfo :=
  match u with
  | .hVersion n => { s with Version := n }
  | .hIndex n => { s with Index := n }
  | .hTotal n => { s with Total := n }
  | .hThreshold n => { s with Threshold := n }
  | .hHolder v => { s with Holder := v }
  | .hCreated t => { s with Created := some t }
  | .hChecksum v => { s with Checksum := v }

/-- The field a header update writes. -/
def updField : HUpd → Nat
  | .hVersion _ => 0
  | .hIndex _ => 1
  | .hTotal _ => 2
  | .hThreshold _ => 3
  | .hHolder _ => 4
  | .hCreated _ => 5
  | .hChecksum _ => 6

/-- `strings.SplitN(line, ": ", 2)`: key and value around the first
separator, or `none` when the separator is absent. -/
def splitN2 (line : List Char) : Option (List Char × List Char) :=
  (firstIndex line ([':', ' '])).map fun i => (line.take i, line.drop (i + 2))

/-- The `switch key` of the header loop: a recognized key either yields
an update or an error from its value parser; unknown keys and lines
without the separator are skipped. -/
def interpHeaderLine (line : List Char) : Except String (Option HUpd) :=
  match splitN2 line with
  | none => .ok none
  | some (key, value) =>
    if key = ("Version".data) then
      match goAtoi value with
      | some v => .ok (some (.hVersion v))
      | none => .error "invalid version"
    else if key = ("Index".data) then
      match goAtoi value with
      | some v => .ok (some (.hIndex v))
      | none => .error "invalid index"
    else if key = ("Total".data) then
      match goAtoi value with
      | some v => .ok (some (.hTotal v))
      | none => .error "invalid total"
    else if key = ("Threshold".data) then
      match goAtoi value with
      | some v => .ok (some (.hThreshold v))
      | none => .error "invalid threshold"
    else if key = ("Holder".data) then .ok (some (.hHolder value))
    else if key = ("Created".data) then
      match parseRFC3339 value with
      | some t => .ok (some (.hCreated t))
      | none => .error "invalid created time"
    else if key = ("Checksum".data) then .ok (some (.hChecksum value))
    else .ok none

/-- The mutable state of the parse loop. -/
structure PState where
  share : ShareInfo
  dataLines : List (List Char)
  inData : Bool
deriving DecidableEq

/-- The initial loop state. -/
def initPState : PState := ⟨initShare, [], false⟩

/-- One iteration of the line loop of `parseShare`. -/
def processLine (st : PState) (rawLine : List Char) : Except String PState :=
  let line := trimSpace rawLine
  if line = [] then .ok { st with inData := true }
  else if st.inData then .ok { st with dataLines := st.dataLines ++ [line] }
  else
    match interpHeaderLine line with
    | .ok none => .ok st
    | .ok (some u) => .ok { st with share := applyUpd u st.share }
    | .error e => .error e

/-- The line loop. -/
def processLines (st : PState) : List (List Char) → Except String PState
  | [] => .ok st
  | l :: ls =>
    match processLine st l with
    | .ok st2 => processLines st2 ls
    | .error e => .error e

/-- The value of one base64 character. -/
def b64Val (c : Char) : Option Nat :=
  if 'A' ≤ c ∧ c ≤ 'Z' then some (c.toNat - 65)
  else if 'a' ≤ c ∧ c ≤ 'z' then some (c.toNat - 71)
  else if '0' ≤ c ∧ c ≤ '9' then some (c.toNat + 4)
  else if c = '+' then some 62
  else if c = '/' then some 63
  else none

/-- Standard base64 in four-character groups with `=` padding allowed only
at the end of the final group (Go `encoding/base64`, non-strict: trailing
bits are not checked). -/
def b64DecodeGroups : List Char → Option (List Nat)
  | [] => some []
  | c1 :: c2 :: c3 :: c4 :: rest =>
    match b64Val c1, b64Val c2 with
    | some v1, some v2 =>
      if c3 = '=' then
        if c4 = '=' ∧ rest = [] then some [v1 * 4 + v2 / 16] else none
      else
        match b64Val c3 with
        | some v3 =>
          if c4 = '=' then
            if rest = [] then some [v1 * 4 + v2 / 16, (v2 % 16) * 16 + v3 / 4]
            else none
          else
            match b64Val c4 with
            | some v4 =>
              (b64DecodeGroups rest).map fun bs =>
                (v1 * 4 + v2 / 16) :: ((v2 % 16) * 16 + v3 / 4) ::
                  ((v3 % 4) * 64 + v4) :: bs
            | none => none
        | none => none
    | _, _ => none
  | _ => none

/-- `base64.StdEncoding.DecodeString` (which ignores CR and LF). -/
def b64DecodeStd (s : List Char) : Option (List Nat) :=
  b64DecodeGroups (s.filter (fun c => ¬ (c = '\r' ∨ c = '\n')))

/-- The tail of `parseShare` after the loop: join the data lines, check
they are base64, then require the four numeric fields non-zero and the
payload non-empty. -/
def finalizeShare (st : PState) : Except String ShareInfo :=
  let dataStr := st.dataLines.flatten
  match b64DecodeStd dataStr with
  | none => .error "invalid base64 data"
  | some _ =>
    let share := { st.share with DataB64 := dataStr }
    if share.Version = 0 then .error "missing version"
    else if share.Index = 0 then .error "missing index"
    else if share.Total = 0 then .error "missing total"
    else if share.Threshold = 0 then .error "missing threshold"
    else if share.DataB64 = [] then .error "missing share data"
    else .ok share

/-- Parsing of the text between the sentinels: trim, split into lines,
run the loop, finalize. -/
def parseShareInner (mid : List Char) : Except String ShareInfo :=
  match processLines initPState (splitOnChar '\n' (trimSpace mid)) with
  | .ok st => finalizeShare st
  | .error e => .error e

/-- `parseShare` (src/internal/wasm/recover.go:57): find the first begin
sentinel and the first end sentinel of the whole content, fail unless the
latter comes strictly after the former, then parse the text in between.
When the end sentinel starts fewer than `shareBegin.length` characters
after the begin sentinel the Go code panics on its slice bounds; the
model's truncating slice yields an empty inner text there instead. -/
def parseShare (content : List Char) : Except String ShareInfo :=
  match firstIndex content shareBegin, firstIndex content shareEnd with
  | some b, some e =>
    if e ≤ b then .error "no share found in content"
    else
      parseShareInner
        ((content.drop (b + shareBegin.length)).take (e - (b + shareBegin.length)))
  | _, _ => .error "no share found in content"

/-- A long-form blob whose headers and payload are structurally fine but
whose checksum does not match the payload digest, whose payload first
byte disagrees with `Index`, and whose `Threshold` breaks the bounds. -/
def cexBlob : List Char :=
  ("-----BEGIN REMEMORY SHARE-----\nVersion: 1\nIndex: 2\nTotal: 3\nThreshold: 1\nChecksum: sha256:0000\n\nAQ==\n-----END REMEMORY SHARE-----".data)

/-- The share `parseShare` returns for `cexBlob`. -/
def cexShare : ShareInfo :=
  ⟨1, 2, 3, 1, [], none, ("sha256:0000".data), ("AQ==".data)⟩

/-- A fully well-formed long-form blob (payload `[1, 7]`, checksum the
true digest of the payload, index agreeing with the payload). -/
def goodBlob : List Char :=
  ("-----BEGIN REMEMORY SHARE-----\nVersion: 1\nIndex: 1\nTotal: 3\nThreshold: 2\nHolder: Alice\nCreated: 2024-01-02T03:04:05Z\nChecksum: sha256:ca6c6588fa01171b200740344d354e8548b7470061fb32a34f4feee470ec281f\n\nAQc=\n-----END REMEMORY SHARE-----".data)

/-- The share `parseShare` returns for `goodBlob`. -/
def goodShare : ShareInfo :=
  ⟨1, 1, 3, 2, ("Alice".data), some ⟨2024, 1, 2, 3, 4, 5, [], true, false, 0, 0⟩,
    ("sha256:ca6c6588fa01171b200740344d354e8548b7470061fb32a34f4feee470ec281f".data),
    ("AQc=".data)⟩

set_option maxRecDepth 400000 in
/-- C1 counterexample: `parseShare` accepts a blob whose checksum is not
the digest of the payload, whose payload byte 0 is not the index, and
whose threshold is below 2 — so the long-form parser does not enforce
checksum, index agreement, or the numeric bounds. -/
theorem parseShare_accepts_invalid :
    parseShare cexBlob = .ok cexShare ∧
    b64DecodeStd cexShare.DataB64 = some [1] ∧
    cexShare.Checksum ≠ HashBytes [1] ∧
    (1 : Int) ≠ cexShare.Index ∧
    ¬ 2 ≤ cexShare.Threshold := by decide

theorem finalizeShare_ok {st : PState} {s : ShareInfo}
    (h : finalizeShare st = .ok s) :
    s.Version ≠ 0 ∧ s.Index ≠ 0 ∧ s.Total ≠ 0 ∧ s.Threshold ≠ 0 ∧
    s.DataB64 ≠ [] ∧ (b64DecodeStd s.DataB64).isSome := by
  simp only [finalizeShare] at h
  split at h
  · exact absurd h (by simp)
  case _ bs hbs =>
    split at h
    · exact absurd h (by simp)
    split at h
    · exact absurd h (by simp)
    split at h
    · exact absurd h (by simp)
    split at h
    · exact absurd h (by simp)
    split at h
    · exact absurd h (by simp)
    rename_i h1 h2 h3 h4 h5
    rw [Except.ok.injEq] at h
    subst h
    refine ⟨by simpa using h1, by simpa using h2, by simpa using h3,
      by simpa using h4, by simpa using h5, by simp [hbs]⟩

theorem parseShareInner_ok {mid : List Char} {s : ShareInfo}
    (h : parseShareInner mid = .ok s) :
    s.Version ≠ 0 ∧ s.Index ≠ 0 ∧ s.Total ≠ 0 ∧ s.Threshold ≠ 0 ∧
    s.DataB64 ≠ [] ∧ (b64DecodeStd s.DataB64).isSome := by
  unfold parseShareInner at h
  split at h
  · exact finalizeShare_ok h
  · exact absurd h (by simp)

/-- C1 (amended): the long-form parser checks structure only — a blob it
accepts yields a share whose four numeric headers parsed to non-zero
integers and whose payload is non-empty well-formed base64. It does not
compare the checksum against a fresh digest, does not compare the payload
first byte with the index, and does not enforce the `§3` bounds (see the
counterexample). -/
theorem parseShare_structural_checks (content : List Char) (s : ShareInfo)
    (h : parseShare content = .ok s) :
    s.Version ≠ 0 ∧ s.Index ≠ 0 ∧ s.Total ≠ 0 ∧ s.Threshold ≠ 0 ∧
    s.DataB64 ≠ [] ∧ (b64DecodeStd s.DataB64).isSome := by
  unfold parseShare at h
  split at h
  · split at h
    · exact absurd h (by simp)
    · exact parseShareInner_ok h
  · exact absurd h (by simp)

set_option maxRecDepth 400000 in
theorem parseShare_structural_checks_witness :
    parseShare goodBlob = .ok goodShare ∧
    (goodShare.Version ≠ 0 ∧ goodShare.Index ≠ 0 ∧ goodShare.Total ≠ 0 ∧
      goodShare.Threshold ≠ 0 ∧ goodShare.DataB64 ≠ [] ∧
      (b64DecodeStd goodShare.DataB64).isSome) :=
  ⟨by decide, parseShare_structural_checks goodBlob goodShare (by decide)⟩

/-! ## Key-driven header parsing (claim C5 infrastructure) -/

/-- The update a raw line performs when processed as a header line
(`none` both for skipped lines and for failing ones). -/
def lineUpd (l : List Char) : Option HUpd :=
  match interpHeaderLine (trimSpace l) with
  | .ok u => u
  | .error _ => none

/-- A raw line acceptable as a header line: non-blank after trimming, and
its header interpretation does not error. -/
def headerLineOk (l : List Char) : Bool :=
  decide (trimSpace l ≠ []) &&
    (match interpHeaderLine (trimSpace l) with
     | .ok _ => true
     | .error _ => false)

/-- Two raw lines may be exchanged: equal, or they do not write the same
share field. -/
def updCompatible (a b : List Char) : Bool :=
  decide (a = b) ||
    (match lineUpd a, lineUpd b with
     | some u, some v => decide (updField u ≠ updField v)
     | _, _ => true)

/-- The pure effect of a successful header line on the share. -/
def stepShare (sh : ShareInfo) (l : List Char) : ShareInfo :=
  match lineUpd l with
  | some u => applyUpd u sh
  | none => sh

theorem applyUpd_comm {u v : HUpd} (h : updField u ≠ updField v) (s : ShareInfo) :
    applyUpd u (applyUpd v s) = applyUpd v (applyUpd u s) := by
  cases u <;> cases v <;> first
    | rfl
    | (simp [updField] at h)

theorem stepShare_comm {x y : List Char} (h : updCompatible x y = true)
    (z : ShareInfo) : stepShare (stepShare z x) y = stepShare (stepShare z y) x := by
  by_cases hxy : x = y
  · subst hxy; rfl
  · unfold updCompatible at h
    simp [hxy] at h
    unfold stepShare
    cases hux : lineUpd x <;> cases huy : lineUpd y <;> simp [hux, huy]
    rename_i u v
    rw [hux, huy] at h
    simp at h
    first
      | exact applyUpd_comm h z
      | exact applyUpd_comm (Ne.symm h) z

theorem processLine_header {sh : ShareInfo} {dls : List (List Char)}
    (l : List Char) (hok : headerLineOk l = true) :
    processLine ⟨sh, dls, false⟩ l = .ok ⟨stepShare sh l, dls, false⟩ := by
  unfold headerLineOk at hok
  rw [Bool.and_eq_true] at hok
  obtain ⟨hne, hint⟩ := hok
  unfold processLine stepShare lineUpd
  simp only [of_decide_eq_true hne, if_neg (of_decide_eq_true hne)]
  split at hint
  case _ u heq =>
    cases u with
    | none => simp [heq]
    | some u => simp [heq]
  case _ e heq => simp at hint

theorem processLines_headers (hs : List (List Char)) :
    ∀ (sh : ShareInfo) (dls : List (List Char)),
      (∀ l ∈ hs, headerLineOk l = true) →
      processLines ⟨sh, dls, false⟩ hs = .ok ⟨hs.foldl stepShare sh, dls, false⟩ := by
  induction hs with
  | nil => intro sh dls _; rfl
  | cons l ls ih =>
    intro sh dls hok
    have h1 : processLine ⟨sh, dls, false⟩ l = .ok ⟨stepShare sh l, dls, false⟩ :=
      processLine_header l (hok l (by simp))
    simp only [processLines, h1]
    exact ih (stepShare sh l) dls (fun x hx => hok x (by simp [hx]))

theorem processLines_append (a b : List (List Char)) :
    ∀ st, processLines st (a ++ b) =
      match processLines st a with
      | .ok st2 => processLines st2 b
      | .error e => .error e := by
  induction a with
  | nil => intro st; simp [processLines]
  | cons l ls ih =>
    intro st
    simp only [List.cons_append, processLines]
    cases processLine st l with
    | ok st2 => exact ih st2
    | error e => rfl

/-- C5 (amended): `parseShare` locates the first begin sentinel and the
first end sentinel of the whole document — so when no end sentinel
precedes the begin sentinel this is the next end sentinel after it and
only the text between the sentinels matters (first conjunct); header
parsing is key-driven: permuting the header lines of a well-formed block
yields the same share (second conjunct); and surrounding whitespace on a
line is immaterial (third conjunct). The counterexample shows the claim's
stronger reading fails: an end sentinel occurring before the begin
sentinel makes parsing fail instead of being skipped. -/
theorem parseShare_locates_and_key_driven :
    (∀ pre mid post : List Char,
      firstIndex (pre ++ shareBegin ++ mid ++ shareEnd ++ post) shareBegin =
        some pre.length →
      firstIndex (pre ++ shareBegin ++ mid ++ shareEnd ++ post) shareEnd =
        some (pre.length + shareBegin.length + mid.length) →
      parseShare (pre ++ shareBegin ++ mid ++ shareEnd ++ post) =
        parseShareInner mid) ∧
    (∀ (mid mid' : List Char) (hs hs' ds : List (List Char)),
      splitOnChar '\n' (trimSpace mid) = hs ++ [[]] ++ ds →
      splitOnChar '\n' (trimSpace mid') = hs' ++ [[]] ++ ds →
      hs.Perm hs' →
      (∀ l ∈ hs, headerLineOk l = true) →
      (∀ x ∈ hs, ∀ y ∈ hs, updCompatible x y = true) →
      parseShareInner mid = parseShareInner mid') ∧
    (∀ (st : PState) (l : List Char) (m n : Nat),
      processLine st (List.replicate m ' ' ++ l ++ List.replicate n ' ') =
        processLine st l) := by
  refine ⟨?_, ?_, ?_⟩
  · intro pre mid post h1 h2
    unfold parseShare
    simp only [h1, h2]
    have hb : shareBegin.length = 30 := by decide
    rw [if_neg (by rw [hb]; omega)]
    congr 1
    have hassoc : pre ++ shareBegin ++ mid ++ shareEnd ++ post =
        (pre ++ shareBegin) ++ (mid ++ (shareEnd ++ post)) := by simp
    rw [hassoc, List.drop_left' (by simp)]
    have harith : pre.length + shareBegin.length + mid.length -
        (pre.length + shareBegin.length) = mid.length := by omega
    rw [harith, List.take_left' rfl]
  · intro mid mid' hs hs' ds hsplit hsplit' hperm hok hcompat
    have hok' : ∀ l ∈ hs', headerLineOk l = true :=
      fun l hl => hok l (hperm.mem_iff.mpr hl)
    have hfold : hs.foldl stepShare initShare = hs'.foldl stepShare initShare :=
      hperm.foldl_eq' (fun x hx y hy z => stepShare_comm (hcompat x hx y hy) z)
        initShare
    unfold parseShareInner
    rw [hsplit, hsplit']
    rw [show hs ++ [[]] ++ ds = hs ++ ([[]] ++ ds) by simp,
        show hs' ++ [[]] ++ ds = hs' ++ ([[]] ++ ds) by simp]
    rw [processLines_append, processLines_append]
    rw [show (initPState : PState) = ⟨initShare, [], false⟩ from rfl]
    rw [processLines_headers hs initShare [] hok,
        processLines_headers hs' initShare [] hok']
    rw [hfold]
  · intro st l m n
    unfold processLine
    have htrim : trimSpace (List.replicate m ' ' ++ l ++ List.replicate n ' ') =
        trimSpace l := by
      unfold trimSpace
      rw [show List.replicate m ' ' ++ l ++ List.replicate n ' ' =
        List.replicate m ' ' ++ (l ++ List.replicate n ' ') by simp]
      rw [List.dropWhile_append_of_pos (by
        intro a ha
        rw [List.eq_of_mem_replicate ha]
        rfl)]
      rw [List.dropWhile_append]
      split
      case isTrue hemp =>
        rw [List.isEmpty_iff] at hemp
        have hrep : List.dropWhile isGoSpace (List.replicate n ' ') = [] :=
          List.dropWhile_eq_nil_iff.mpr
            (fun x hx => by rw [List.eq_of_mem_replicate hx]; rfl)
        simp [trimSpace, hemp, hrep]
      case isFalse hemp =>
        rw [List.reverse_append, List.reverse_replicate]
        rw [List.dropWhile_append_of_pos (by
          intro a ha
          rw [List.eq_of_mem_replicate ha]
          rfl)]
    rw [htrim]

set_option maxRecDepth 400000 in
/-- C5 counterexample: `strings.Index` finds the first end sentinel of the
whole document, not the next one after the begin sentinel — a document
that mentions the end sentinel before a perfectly well-formed block fails
to parse, although the block alone parses fine. -/
theorem parseShare_end_before_begin :
    parseShare (shareEnd ++ ('\n' :: goodBlob)) =
      .error "no share found in content" ∧
    parseShare goodBlob = .ok goodShare := by decide

/-- Inner block text used by the C5 witness (emit order headers). -/
def midA : List Char :=
  ("\nVersion: 1\nIndex: 1\nTotal: 3\nThreshold: 2\n\nAQc=\n".data)

/-- The same block with the header lines permuted. -/
def midB : List Char :=
  ("\nIndex: 1\nVersion: 1\nThreshold: 2\nTotal: 3\n\nAQc=\n".data)

set_option maxRecDepth 400000 in
theorem parseShare_locates_witness :
    parseShare (("Intro\n".data) ++ shareBegin ++ midA ++ shareEnd ++ ("\nTail".data)) =
      parseShareInner midA ∧
    parseShareInner midA = parseShareInner midB ∧
    processLine initPState
        (List.replicate 2 ' ' ++ ("Holder: Bob".data) ++ List.replicate 1 ' ') =
      processLine initPState ("Holder: Bob".data) :=
  ⟨parseShare_locates_and_key_driven.1 ("Intro\n".data) midA ("\nTail".data)
      (by decide) (by decide),
   parseShare_locates_and_key_driven.2.1 midA midB
     [("Version: 1".data), ("Index: 1".data), ("Total: 3".data), ("Threshold: 2".data)]
     [("Index: 1".data), ("Version: 1".data), ("Threshold: 2".data), ("Total: 3".data)]
     [("AQc=".data)]
     (by decide) (by decide) (by decide) (by decide) (by decide),
   parseShare_locates_and_key_driven.2.2 initPState ("Holder: Bob".data) 2 1⟩

/-! ## Personalization extraction (src/internal/html/extract.go)

`ExtractManifestFromHTML` runs the regexp
`window\.PERSONALIZATION\s*=\s*(\{[^\n]*\})\s*;` over the page, JSON
decodes the capture into a struct with the single field `manifestB64`,
and base64 decodes that field. The regexp is embedded operationally:
leftmost start, then the greedy single-line capture. The JSON decoder is
embedded for the flat objects the personalization block holds (string,
number, boolean, and null members with the escapes `\" \\ \/ \b \f \n \r
\t`); nested containers and `\u` escapes are outside the model. -/

/-- RE2's `\s`: `[\t\n\f\r ]`. -/
def isRegexSpace (c : Char) : Bool :=
  c = ' ' || c = '\t' || c = '\n' || c = '\x0c' || c = '\r'

/-- The literal part `window.PERSONALIZATION` of the pattern. -/
def persMarker : List Char := "window.PERSONALIZATION".data

/-- Does a `;` follow after optional whitespace? (the trailing `\s*;`). -/
def semiAfter (s : List Char) : Bool :=
  match s.dropWhile isRegexSpace with
  | ';' :: _ => true
  | _ => false

/-- Greedy search for the `\}` closing the capture: try the largest
inner length first, as a backtracking engine would. -/
def pickClose (run afterRun : List Char) : Nat → Option Nat
  | 0 => none
  | j + 1 =>
    if run.getD j ' ' = '}' ∧ semiAfter (run.drop (j + 1) ++ afterRun) then some j
    else pickClose run afterRun j

/-- One attempt of the whole pattern anchored at the start of `s`,
returning the capture group. -/
def matchPersAt (s : List Char) : Option (List Char) :=
  if beginsWith s persMarker then
    match (s.drop persMarker.length).dropWhile isRegexSpace with
    | '=' :: r2 =>
      match r2.dropWhile isRegexSpace with
      | '{' :: r3 =>
        let run := r3.takeWhile (fun c => c != '\n')
        match pickClose run (r3.drop run.length) run.length with
        | some j => some ('{' :: run.take j ++ ['}'])
        | none => none
      | _ => none
    | _ => none
  else none

/-- `personalizationRe.FindSubmatch`: leftmost matching start wins. -/
def findPers : List Char → Option (List Char)
  | [] => none
  | s@(_ :: rest) =>
    match matchPersAt s with
    | some cap => some cap
    | none => findPers rest

/-- JSON values of the modelled subset. -/
inductive JVal where
  | jstr (s : List Char)
  | jnum
  | jbool (b : Bool)
  | jnull
deriving DecidableEq

/-- Unescape one character escape. -/
def jUnescape (c : Char) : Option Char :=
  if c = '"' then some '"'
  else if c = '\\' then some '\\'
  else if c = '/' then some '/'
  else if c = 'b' then some '\x08'
  else if c = 'f' then some '\x0c'
  else if c = 'n' then some '\n'
  else if c = 'r' then some '\r'
  else if c = 't' then some '\t'
  else none

/-- Parse a JSON string body (after the opening quote): the unescaped
content and the rest after the closing quote. -/
def parseJStringAux : List Char → Option (List Char × List Char)
  | [] => none
  | '"' :: rest => some ([], rest)
  | '\\' :: c :: rest =>
    (jUnescape c).bind fun u =>
      (parseJStringAux rest).map fun p => (u :: p.1, p.2)
  | c :: rest =>
    if c = '\\' ∨ c.toNat < 32 then none
    else (parseJStringAux rest).map fun p => (c :: p.1, p.2)

/-- JSON inter-token whitespace. -/
def jSkipWS (s : List Char) : List Char :=
  s.dropWhile (fun c => c = ' ' || c = '\t' || c = '\n' || c = '\r')

/-- A character a JSON number may contain. -/
def isNumChar (c : Char) : Bool :=
  isDigit c || c = '-' || c = '+' || c = '.' || c = 'e' || c = 'E'

/-- One JSON value of the subset. -/
def parseJVal (s : List Char) : Option (JVal × List Char) :=
  match s with
  | '"' :: rest => (parseJStringAux rest).map fun p => (.jstr p.1, p.2)
  | 't' :: 'r' :: 'u' :: 'e' :: rest => some (.jbool true, rest)
  | 'f' :: 'a' :: 'l' :: 's' :: 'e' :: rest => some (.jbool false, rest)
  | 'n' :: 'u' :: 'l' :: 'l' :: rest => some (.jnull, rest)
  | c :: _ =>
    if isDigit c ∨ c = '-' then
      some (.jnum, s.dropWhile isNumChar)
    else none
  | [] => none

/-- The members of an object, fuel-bounded (any fuel at least the input
length suffices, since every member consumes characters). -/
def parseMembers : Nat → List Char → Option (List (List Char × JVal) × List Char)
  | 0, _ => none
  | fuel + 1, s =>
    match jSkipWS s with
    | '"' :: rest =>
      (parseJStringAux rest).bind fun kp =>
        match jSkipWS kp.2 with
        | ':' :: r2 =>
          (parseJVal (jSkipWS r2)).bind fun vp =>
            match jSkipWS vp.2 with
            | ',' :: r4 =>
              (parseMembers fuel r4).map fun mp => ((kp.1, vp.1) :: mp.1, mp.2)
            | r4 => some ([(kp.1, vp.1)], r4)
        | _ => none
    | _ => none

/-- A whole JSON object, nothing else around it (`json.Unmarshal` on the
capture). -/
def parseJObject (s : List Char) : Option (List (List Char × JVal)) :=
  match jSkipWS s with
  | '{' :: rest =>
    match jSkipWS rest with
    | '}' :: r2 => if jSkipWS r2 = [] then some [] else none
    | r1 =>
      (parseMembers r1.length r1).bind fun mp =>
        match jSkipWS mp.2 with
        | '}' :: r3 => if jSkipWS r3 = [] then some mp.1 else none
        | _ => none
  | _ => none

/-- Duplicate keys: the last value wins, as with `encoding/json`. -/
def lookupLast (key : List Char) : List (List Char × JVal) → Option JVal
  | [] => none
  | kv :: rest =>
    match lookupLast key rest with
    | some v => some v
    | none => if kv.1 = key then some kv.2 else none

/-- The four extraction failures of §4.10. -/
inductive ExtractErr where
  | noPersonalization
  | badJson
  | noEmbeddedManifest
  | badBase64
deriving DecidableEq

/-- `ExtractManifestFromHTML` (src/internal/html/extract.go:29): regexp
capture, JSON decode of `manifestB64` (a JSON `null` leaves the Go zero
string, a value of another type is a decode error), empty-field check,
base64 decode. -/
def ExtractManifestFromHTML (html : List Char) : Except ExtractErr (List Nat) :=
  match findPers html with
  | none => .error .noPersonalization
  | some cap =>
    match parseJObject cap with
    | none => .error .badJson
    | some ms =>
      match lookupLast ("manifestB64".data) ms with
      | none => .error .noEmbeddedManifest
      | some .jnull => .error .noEmbeddedManifest
      | some (.jstr s) =>
        if s = [] then .error .noEmbeddedManifest
        else
          match b64DecodeStd s with
          | some bytes => .ok bytes
          | none => .error .badBase64
      | some _ => .error .badJson

/-- The standard base64 alphabet. -/
def b64Alphabet : List Char :=
  "ABCDEFGHIJKLMNOPQRSTUVWXYZabcdefghijklmnopqrstuvwxyz0123456789+/".data

/-- The character of a 6-bit value. -/
def b64CharOf (n : Nat) : Char := b64Alphabet.getD n 'A'

/-- `base64.StdEncoding.EncodeToString`. -/
def b64EncodeStd : List Nat → List Char
  | [] => []
  | [a] => [b64CharOf (a / 4), b64CharOf ((a % 4) * 16), '=', '=']
  | [a, b] =>
    [b64CharOf (a / 4), b64CharOf ((a % 4) * 16 + b / 16),
     b64CharOf ((b % 16) * 4), '=']
  | a :: b :: c :: rest =>
    b64CharOf (a / 4) :: b64CharOf ((a % 4) * 16 + b / 16) ::
      b64CharOf ((b % 16) * 4 + c / 64) :: b64CharOf (c % 64) ::
        b64EncodeStd rest

theorem b64Val_charOf : ∀ k < 64, b64Val (b64CharOf k) = some k := by decide

theorem b64CharOf_not_crlf (k : Nat) : b64CharOf k ≠ '\r' ∧ b64CharOf k ≠ '\n' := by
  by_cases hk : k < 64
  · have hball : ∀ j < 64, b64CharOf j ≠ '\r' ∧ b64CharOf j ≠ '\n' := by decide
    exact hball k hk
  · unfold b64CharOf
    rw [List.getD_eq_default]
    · decide
    · have : b64Alphabet.length = 64 := by decide
      omega

theorem b64EncodeStd_mem : ∀ (bs : List Nat), ∀ c ∈ b64EncodeStd bs,
    (∃ k, c = b64CharOf k) ∨ c = '='
  | [], c, hc => by simp [b64EncodeStd] at hc
  | [a], c, hc => by
    simp [b64EncodeStd] at hc
    rcases hc with rfl | rfl | rfl
    · exact Or.inl ⟨_, rfl⟩
    · exact Or.inl ⟨_, rfl⟩
    · exact Or.inr rfl
  | [a, b], c, hc => by
    simp [b64EncodeStd] at hc
    rcases hc with rfl | rfl | rfl | rfl
    · exact Or.inl ⟨_, rfl⟩
    · exact Or.inl ⟨_, rfl⟩
    · exact Or.inl ⟨_, rfl⟩
    · exact Or.inr rfl
  | a :: b :: d :: rest, c, hc => by
    simp only [b64EncodeStd, List.mem_cons] at hc
    rcases hc with rfl | rfl | rfl | rfl | hc
    · exact Or.inl ⟨_, rfl⟩
    · exact Or.inl ⟨_, rfl⟩
    · exact Or.inl ⟨_, rfl⟩
    · exact Or.inl ⟨_, rfl⟩
    · exact b64EncodeStd_mem rest c hc

theorem b64EncodeStd_filter (bs : List Nat) :
    (b64EncodeStd bs).filter (fun c => ¬ (c = '\r' ∨ c = '\n')) = b64EncodeStd bs := by
  rw [List.filter_eq_self]
  intro c hc
  rcases b64EncodeStd_mem bs c hc with ⟨k, rfl⟩ | rfl
  · have := b64CharOf_not_crlf k
    simp [this.1, this.2]
  · decide

theorem b64DecodeGroups_encode : ∀ bs : List Nat, (∀ b ∈ bs, b < 256) →
    b64DecodeGroups (b64EncodeStd bs) = some bs
  | [], _ => rfl
  | [a], h => by
    have ha : a < 256 := h a (by simp)
    have h1 : a / 4 < 64 := by omega
    have h2 : (a % 4) * 16 < 64 := by omega
    simp only [b64EncodeStd, b64DecodeGroups,
      b64Val_charOf _ h1, b64Val_charOf _ h2]
    norm_num
    omega
  | [a, b], h => by
    have ha : a < 256 := h a (by simp)
    have hb : b < 256 := h b (by simp)
    have h1 : a / 4 < 64 := by omega
    have h2 : (a % 4) * 16 + b / 16 < 64 := by omega
    have h3 : (b % 16) * 4 < 64 := by omega
    simp only [b64EncodeStd, b64DecodeGroups,
      b64Val_charOf _ h1, b64Val_charOf _ h2, b64Val_charOf _ h3]
    have hne : ¬ b64CharOf ((b % 16) * 4) = '=' := by
      have := b64Val_charOf _ h3
      intro hcontra
      rw [hcontra] at this
      simp [b64Val] at this
    norm_num [hne]
    constructor
    · omega
    · omega
  | a :: b :: d :: rest, h => by
    have ha : a < 256 := h a (by simp)
    have hb : b < 256 := h b (by simp)
    have hd : d < 256 := h d (by simp)
    have h1 : a / 4 < 64 := by omega
    have h2 : (a % 4) * 16 + b / 16 < 64 := by omega
    have h3 : (b % 16) * 4 + d / 64 < 64 := by omega
    have h4 : d % 64 < 64 := by omega
    have ih := b64DecodeGroups_encode rest (fun x hx => h x (by simp [hx]))
    have hne3 : ¬ b64CharOf ((b % 16) * 4 + d / 64) = '=' := by
      have := b64Val_charOf _ h3
      intro hcontra
      rw [hcontra] at this
      simp [b64Val] at this
    have hne4 : ¬ b64CharOf (d % 64) = '=' := by
      have := b64Val_charOf _ h4
      intro hcontra
      rw [hcontra] at this
      simp [b64Val] at this
    simp only [b64EncodeStd, b64DecodeGroups,
      b64Val_charOf _ h1, b64Val_charOf _ h2, b64Val_charOf _ h3,
      b64Val_charOf _ h4, ih]
    norm_num [hne3, hne4]
    refine ⟨by omega, by omega, by omega⟩

theorem b64DecodeStd_encode (bs : List Nat) (h : ∀ b ∈ bs, b < 256) :
    b64DecodeStd (b64EncodeStd bs) = some bs := by
  unfold b64DecodeStd
  rw [b64EncodeStd_filter bs]
  exact b64DecodeGroups_encode bs h

theorem beginsWith_append_self (x y : List Char) :
    beginsWith (x ++ y) x = true := by
  induction x with
  | nil => cases y <;> rfl
  | cons c cs ih => simp [beginsWith, ih]

theorem firstIndex_beginsWith (pat : List Char) :
    ∀ (s : List Char) (n : Nat), firstIndex s pat = some n →
      beginsWith (s.drop n) pat = true ∧
      ∀ i < n, beginsWith (s.drop i) pat = false := by
  intro s
  induction s with
  | nil =>
    intro n h
    unfold firstIndex at h
    split at h
    · rename_i hp
      cases h
      exact ⟨by simp [hp, beginsWith], fun i hi => by omega⟩
    · cases h
  | cons c cs ih =>
    intro n h
    unfold firstIndex at h
    by_cases hb : beginsWith (c :: cs) pat = true
    · rw [if_pos hb] at h
      cases h
      exact ⟨hb, fun i hi => by omega⟩
    · rw [if_neg hb] at h
      cases hfi : firstIndex cs pat with
      | none => rw [hfi] at h; cases h
      | some m =>
        rw [hfi] at h
        simp at h
        subst h
        obtain ⟨h1, h2⟩ := ih m hfi
        refine ⟨by simpa using h1, ?_⟩
        intro i hi
        cases i with
        | zero => simpa using hb
        | succ j => simpa using h2 j (by omega)

theorem findPers_skip (n : Nat) :
    ∀ (s : List Char), (∀ i < n, matchPersAt (s.drop i) = none) → n ≤ s.length →
      findPers s = findPers (s.drop n) := by
  induction n with
  | zero => intro s _ _; rfl
  | succ m ih =>
    intro s h hn
    cases s with
    | nil => simp at hn
    | cons c cs =>
      have h0 : matchPersAt (c :: cs) = none := by simpa using h 0 (by omega)
      have hstep : findPers (c :: cs) = findPers cs := by
        simp only [findPers, h0]
      rw [hstep]
      have := ih cs (fun i hi => by simpa using h (i + 1) (by omega))
        (by simpa using Nat.succ_le_succ_iff.mp hn)
      simpa using this

theorem matchPersAt_none_of_not_marker {s : List Char}
    (h : beginsWith s persMarker = false) : matchPersAt s = none := by
  unfold matchPersAt
  rw [h]
  rfl

theorem findPers_none (html : List Char)
    (h : containsSub html persMarker = false) : findPers html = none := by
  induction html with
  | nil => rfl
  | cons c rest ih =>
    unfold containsSub firstIndex at h
    by_cases hb : beginsWith (c :: rest) persMarker = true
    · rw [if_pos hb] at h
      simp at h
    · rw [if_neg hb] at h
      have h0 : matchPersAt (c :: rest) = none :=
        matchPersAt_none_of_not_marker (by simpa using hb)
      have hstep : findPers (c :: rest) = findPers rest := by
        simp only [findPers, h0]
      rw [hstep]
      apply ih
      unfold containsSub
      cases hfi : firstIndex rest persMarker with
      | none => rfl
      | some m => rw [hfi] at h; simp at h

theorem findPers_of_match {s cap : List Char}
    (h : matchPersAt s = some cap) : findPers s = some cap := by
  cases s with
  | nil =>
    rw [matchPersAt_none_of_not_marker (by decide)] at h
    cases h
  | cons c cs => simp only [findPers, h]

/-- The canonical personalized page shape around the assignment line:
`pre`, the marker, ` = `, the single-line object, `;`, a newline, `post`. -/
def mkPersHTML (pre inner post : List Char) : List Char :=
  pre ++ persMarker ++
    (' ' :: '=' :: ' ' :: '{' :: (inner ++ ('}' :: ';' :: '\n' :: post)))

/-- On a page of the canonical shape whose assignment is the first marker
occurrence and whose object line has no newline, the regexp capture is
exactly the object. -/
theorem findPers_at_marker (pre inner post : List Char)
    (hmark : firstIndex (mkPersHTML pre inner post) persMarker = some pre.length)
    (hnl : ∀ c ∈ inner, c ≠ '\n') :
    findPers (mkPersHTML pre inner post) = some ('{' :: inner ++ ['}']) := by
  obtain ⟨hat, hbefore⟩ := firstIndex_beginsWith persMarker _ _ hmark
  have hlen : pre.length ≤ (mkPersHTML pre inner post).length := by
    simp [mkPersHTML]
  rw [findPers_skip pre.length _
    (fun i hi => matchPersAt_none_of_not_marker (hbefore i hi)) hlen]
  have hdrop : (mkPersHTML pre inner post).drop pre.length =
      persMarker ++
        (' ' :: '=' :: ' ' :: '{' :: (inner ++ ('}' :: ';' :: '\n' :: post))) := by
    unfold mkPersHTML
    rw [show pre ++ persMarker ++
        (' ' :: '=' :: ' ' :: '{' :: (inner ++ ('}' :: ';' :: '\n' :: post))) =
      pre ++ (persMarker ++
        (' ' :: '=' :: ' ' :: '{' :: (inner ++ ('}' :: ';' :: '\n' :: post)))) by simp]
    rw [List.drop_left' rfl]
  rw [hdrop]
  apply findPers_of_match
  unfold matchPersAt
  rw [beginsWith_append_self]
  rw [List.drop_left' rfl]
  have hdw1 : List.dropWhile isRegexSpace
      (' ' :: '=' :: ' ' :: '{' :: (inner ++ ('}' :: ';' :: '\n' :: post))) =
      '=' :: ' ' :: '{' :: (inner ++ ('}' :: ';' :: '\n' :: post)) := by
    rw [List.dropWhile_cons_of_pos (by decide), List.dropWhile_cons_of_neg (by decide)]
  have hdw2 : List.dropWhile isRegexSpace
      (' ' :: '{' :: (inner ++ ('}' :: ';' :: '\n' :: post))) =
      '{' :: (inner ++ ('}' :: ';' :: '\n' :: post)) := by
    rw [List.dropWhile_cons_of_pos (by decide), List.dropWhile_cons_of_neg (by decide)]
  rw [hdw1]
  simp only [hdw2]
  have hrun : (inner ++ ('}' :: ';' :: '\n' :: post)).takeWhile
      (fun c => c != '\n') = inner ++ ['}', ';'] := by
    rw [show inner ++ ('}' :: ';' :: '\n' :: post) =
      inner ++ (['}', ';'] ++ ('\n' :: post)) by simp]
    rw [← List.append_assoc]
    rw [List.takeWhile_append_of_pos (by
      intro a ha
      simp at ha
      rcases ha with ha | rfl | rfl
      · simpa using hnl a ha
      · rfl
      · rfl)]
    simp [List.takeWhile]
  rw [hrun]
  have hafter : (inner ++ ('}' :: ';' :: '\n' :: post)).drop
      (inner ++ ['}', ';']).length = '\n' :: post := by
    rw [show inner ++ ('}' :: ';' :: '\n' :: post) =
      (inner ++ ['}', ';']) ++ ('\n' :: post) by simp]
    rw [List.drop_left' rfl]
  rw [hafter]
  have hlen2 : (inner ++ ['}', ';']).length = inner.length + 2 := by simp
  rw [hlen2]
  have hpick : pickClose (inner ++ ['}', ';']) ('\n' :: post)
      (inner.length + 2) = some inner.length := by
    unfold pickClose
    rw [List.getD_append_right _ _ _ _ (by simp)]
    have hsub : inner.length + 1 - inner.length = 1 := by omega
    rw [hsub]
    rw [if_neg (by simp)]
    unfold pickClose
    rw [List.getD_append_right _ _ _ _ (by simp)]
    have hsub2 : inner.length - inner.length = 0 := by omega
    rw [hsub2]
    rw [if_pos]
    constructor
    · rfl
    · have hdrop2 : (inner ++ ['}', ';']).drop (inner.length + 1) = [';'] := by
        rw [show inner ++ ['}', ';'] = (inner ++ ['}']) ++ [';'] by simp]
        rw [List.drop_left' (by simp)]
      rw [hdrop2]
      rfl
  simp only [hpick, if_true]
  rw [List.take_left' rfl]

theorem b64EncodeStd_ne_nil : ∀ ct : List Nat, ct ≠ [] → b64EncodeStd ct ≠ []
  | [], h => absurd rfl h
  | [_], _ => by simp [b64EncodeStd]
  | [_, _], _ => by simp [b64EncodeStd]
  | _ :: _ :: _ :: _, _ => by simp [b64EncodeStd]

/-- C8: on a page holding the single-line assignment
`window.PERSONALIZATION = {...};` whose object's `manifestB64` member is
the standard base64 encoding of a non-empty ciphertext, the extractor
returns exactly that ciphertext; with no assignment present it fails with
*no-personalization*; and when the object lacks a non-empty string
`manifestB64` member it fails with *no-embedded-manifest*. -/
theorem ExtractManifestFromHTML_spec :
    (∀ (ct : List Nat) (pre inner post : List Char) (ms : List (List Char × JVal)),
      (∀ b ∈ ct, b < 256) → ct ≠ [] →
      firstIndex (mkPersHTML pre inner post) persMarker = some pre.length →
      (∀ c ∈ inner, c ≠ '\n') →
      parseJObject ('{' :: inner ++ ['}']) = some ms →
      lookupLast ("manifestB64".data) ms = some (.jstr (b64EncodeStd ct)) →
      ExtractManifestFromHTML (mkPersHTML pre inner post) = .ok ct) ∧
    (∀ html : List Char, containsSub html persMarker = false →
      ExtractManifestFromHTML html = .error .noPersonalization) ∧
    (∀ (pre inner post : List Char) (ms : List (List Char × JVal)),
      firstIndex (mkPersHTML pre inner post) persMarker = some pre.length →
      (∀ c ∈ inner, c ≠ '\n') →
      parseJObject ('{' :: inner ++ ['}']) = some ms →
      (lookupLast ("manifestB64".data) ms = none ∨
        lookupLast ("manifestB64".data) ms = some (.jstr []) ∨
        lookupLast ("manifestB64".data) ms = some .jnull) →
      ExtractManifestFromHTML (mkPersHTML pre inner post) =
        .error .noEmbeddedManifest) := by
  refine ⟨?_, ?_, ?_⟩
  · intro ct pre inner post ms hct hne hmark hnl hobj hlook
    simp only [ExtractManifestFromHTML,
      findPers_at_marker pre inner post hmark hnl, hobj, hlook]
    rw [if_neg (b64EncodeStd_ne_nil ct hne)]
    simp only [b64DecodeStd_encode ct hct]
  · intro html h
    simp only [ExtractManifestFromHTML, findPers_none html h]
  · intro pre inner post ms hmark hnl hobj hlook
    simp only [ExtractManifestFromHTML,
      findPers_at_marker pre inner post hmark hnl, hobj]
    rcases hlook with hl | hl | hl <;> simp [hl]

set_option maxRecDepth 400000 in
theorem ExtractManifestFromHTML_spec_witness :
    ExtractManifestFromHTML
        (mkPersHTML ("<p>\n".data) ("\x22manifestB64\x22:\x22AQc=\x22".data)
          ("rest".data)) = .ok [1, 7] ∧
    ExtractManifestFromHTML ("<html>no assignment</html>".data) =
      .error .noPersonalization ∧
    ExtractManifestFromHTML
        (mkPersHTML ("<p>\n".data) ("\x22holder\x22:\x22Bob\x22".data)
          ("rest".data)) = .error .noEmbeddedManifest :=
  ⟨ExtractManifestFromHTML_spec.1 [1, 7] ("<p>\n".data)
      ("\x22manifestB64\x22:\x22AQc=\x22".data) ("rest".data)
      [(("manifestB64".data), JVal.jstr ("AQc=".data))]
      (by decide) (by decide) (by decide) (by decide) (by decide) (by decide),
   ExtractManifestFromHTML_spec.2.1 ("<html>no assignment</html>".data) (by decide),
   ExtractManifestFromHTML_spec.2.2 ("<p>\n".data)
      ("\x22holder\x22:\x22Bob\x22".data) ("rest".data)
      [(("holder".data), JVal.jstr ("Bob".data))]
      (by decide) (by decide) (by decide) (Or.inl (by decide))⟩

/-! ## Recovery-page emission (src/internal/html/recover.go)

`GenerateRecoverHTML` substitutes six literal tokens with
`strings.Replace(html, token, value, 1)`, one full-string pass after
another, each acting on the output of the one before. The embedded
template and assets (`go:embed assets/...`, not under src/) enter as
parameters, and `wasmB64` stands for
`base64.StdEncoding.EncodeToString(wasmBytes)`. -/

/-- `strings.Replace(s, old, new, 1)`. -/
def replaceOnce (s old new : List Char) : List Char :=
  match firstIndex s old with
  | none => s
  | some i => s.take i ++ new ++ s.drop (i + old.length)

def tokSTYLES : List Char := "{{STYLES}}".data

def tokWASMEXEC : List Char := "{{WASM_EXEC}}".data

def tokAPPJS : List Char := "{{APP_JS}}".data

def tokWASMB64 : List Char := "{{WASM_BASE64}}".data

def tokVERSION : List Char := "{{VERSION}}".data

def tokGITHUB : List Char := "{{GITHUB_URL}}".data

/-- `GenerateRecoverHTML` (src/internal/html/recover.go:12): six
sequential single replacements in emit order. -/
def GenerateRecoverHTML (template stylesCSS wasmExecJS appJS : List Char)
    (wasmBytes : List Nat) (version githubURL : List Char) : List Char :=
  let h1 := replaceOnce template tokSTYLES stylesCSS
  let h2 := replaceOnce h1 tokWASMEXEC wasmExecJS
  let h3 := replaceOnce h2 tokAPPJS appJS
  let h4 := replaceOnce h3 tokWASMB64 (b64EncodeStd wasmBytes)
  let h5 := replaceOnce h4 tokVERSION version
  replaceOnce h5 tokGITHUB githubURL

/-- Modelled from the spec: the recovery-page template (asset
`assets/recover.html`, `go:embed`, not under src/) carries each of the
six substitution tokens once, in the order the spec lists them. -/
def cexTemplate : List Char :=
  ("<a>{{STYLES}}<b>{{WASM_EXEC}}<c>{{APP_JS}}<d>{{WASM_BASE64}}<e>{{VERSION}}<f>{{GITHUB_URL}}<g>".data)

set_option maxRecDepth 400000 in
/-- C9 counterexample: with `version = "{{GITHUB_URL}}"`, the final pass
replaces the token-shaped text that the fifth pass inserted — the
template's own `{{GITHUB_URL}}` token survives in the output — so the
substitution is not a single linear pass over the original template, and
token text inserted by an earlier substitution is replaced. -/
theorem GenerateRecoverHTML_replaces_inserted :
    GenerateRecoverHTML cexTemplate ("s".data) ("w".data) ("a".data) []
        ("{{GITHUB_URL}}".data) ("G".data) =
      ("<a>s<b>w<c>a<d><e>G<f>{{GITHUB_URL}}<g>".data) ∧
    containsSub
      (GenerateRecoverHTML cexTemplate ("s".data) ("w".data) ("a".data) []
        ("{{GITHUB_URL}}".data) ("G".data)) tokGITHUB = true := by decide

/-- The fold of single replacements over token/value pairs. -/
def seqReplace (s : List Char) : List (List Char × List Char) → List Char
  | [] => s
  | (tok, rep) :: rest => seqReplace (replaceOnce s tok rep) rest

/-- A template interleaving segments and tokens. -/
def mkTemplate (u0 : List Char) :
    List ((List Char × List Char) × List Char) → List Char
  | [] => u0
  | ((tok, _), u) :: rest => u0 ++ tok ++ mkTemplate u rest

/-- The same interleaving with each token replaced by its value. -/
def mkResult (u0 : List Char) :
    List ((List Char × List Char) × List Char) → List Char
  | [] => u0
  | ((_, rep), u) :: rest => u0 ++ rep ++ mkResult u rest

theorem mkTemplate_shift (items : List ((List Char × List Char) × List Char)) :
    ∀ a b : List Char, mkTemplate (a ++ b) items = a ++ mkTemplate b items := by
  induction items with
  | nil => intro a b; rfl
  | cons item rest _ =>
    intro a b
    cases item with
    | mk p u => simp [mkTemplate]

theorem mkResult_shift (items : List ((List Char × List Char) × List Char)) :
    ∀ a b : List Char, mkResult (a ++ b) items = a ++ mkResult b items := by
  induction items with
  | nil => intro a b; rfl
  | cons item rest _ =>
    intro a b
    cases item with
    | mk p u => simp [mkResult]

/-- The first occurrence of a token opening with `{` in a text whose
prefix is brace-free is right after the prefix. -/
theorem firstIndex_after_braceFree (tok rest : List Char)
    (htok : tok.headD ' ' = '{') (hne : tok ≠ []) :
    ∀ P : List Char, (∀ c ∈ P, c ≠ '{') →
      firstIndex (P ++ tok ++ rest) tok = some P.length := by
  intro P
  induction P with
  | nil =>
    intro _
    cases tok with
    | nil => exact absurd rfl hne
    | cons t ts =>
      simp only [List.nil_append, firstIndex]
      rw [if_pos (beginsWith_append_self (t :: ts) rest)]
      rfl
  | cons c cs ih =>
    intro hP
    have hc : c ≠ '{' := hP c (by simp)
    cases tok with
    | nil => exact absurd rfl hne
    | cons t ts =>
      have ht : t = '{' := by simpa using htok
      have hbw : beginsWith ((c :: cs) ++ (t :: ts) ++ rest) (t :: ts) = false := by
        simp only [List.cons_append, beginsWith]
        rw [ht]
        simp [hc]
      simp only [List.cons_append, firstIndex]
      rw [if_neg (by simpa using hbw)]
      have hih := ih (fun x hx => hP x (by simp [hx]))
      simp only [List.append_eq, List.cons_append, List.append_assoc] at hih ⊢
      rw [hih]
      rfl

theorem replaceOnce_at (x tok y rep : List Char)
    (h : firstIndex (x ++ tok ++ y) tok = some x.length) :
    replaceOnce (x ++ tok ++ y) tok rep = x ++ rep ++ y := by
  have h1 : (x ++ tok ++ y).take x.length = x := by
    rw [List.append_assoc, List.take_left' rfl]
  have h2 : (x ++ tok ++ y).drop (x.length + tok.length) = y := by
    rw [List.append_assoc, show x.length + tok.length = (x ++ tok).length by simp,
      ← List.append_assoc, List.drop_left' rfl]
  simp only [replaceOnce, h]
  rw [h1, h2]

/-- A well-formed item: a non-empty token opening with `{`, a brace-free
value, and a brace-free following segment. -/
def itemOk (item : (List Char × List Char) × List Char) : Prop :=
  item.1.1.headD ' ' = '{' ∧ item.1.1 ≠ [] ∧
    (∀ c ∈ item.1.2, c ≠ '{') ∧ ∀ c ∈ item.2, c ≠ '{'

theorem seqReplace_linear (items : List ((List Char × List Char) × List Char)) :
    ∀ u0 : List Char, (∀ c ∈ u0, c ≠ '{') →
      (∀ item ∈ items, itemOk item) →
      seqReplace (mkTemplate u0 items) (items.map Prod.fst) = mkResult u0 items := by
  induction items with
  | nil => intro u0 _ _; rfl
  | cons item rest ih =>
    intro u0 hu0 hitems
    obtain ⟨⟨tok, rep⟩, u⟩ := item
    obtain ⟨htok, hne, hrep, hu⟩ := hitems ((tok, rep), u) (by simp)
    simp only [mkTemplate, mkResult, List.map_cons, seqReplace]
    rw [show u0 ++ tok ++ mkTemplate u rest = u0 ++ tok ++ mkTemplate u rest from rfl]
    rw [replaceOnce_at u0 tok (mkTemplate u rest) rep
      (firstIndex_after_braceFree tok (mkTemplate u rest) htok hne u0 hu0)]
    have hshift : u0 ++ rep ++ mkTemplate u rest =
        mkTemplate (u0 ++ rep ++ u) rest := by
      rw [mkTemplate_shift rest (u0 ++ rep) u]
    rw [hshift]
    rw [ih (u0 ++ rep ++ u) (by
      intro c hc
      simp at hc
      rcases hc with hc | hc | hc
      · exact hu0 c hc
      · exact hrep c hc
      · exact hu c hc) (fun it hit => hitems it (by simp [hit]))]
    rw [mkResult_shift rest (u0 ++ rep) u]

theorem b64CharOf_ne_brace (k : Nat) : b64CharOf k ≠ '{' := by
  by_cases hk : k < 64
  · have hball : ∀ j < 64, b64CharOf j ≠ '{' := by decide
    exact hball k hk
  · unfold b64CharOf
    rw [List.getD_eq_default]
    · decide
    · have : b64Alphabet.length = 64 := by decide
      omega

theorem b64EncodeStd_noBrace (wasm : List Nat) :
    ∀ c ∈ b64EncodeStd wasm, c ≠ '{' := by
  intro c hc
  rcases b64EncodeStd_mem wasm c hc with ⟨k, rfl⟩ | rfl
  · exact b64CharOf_ne_brace k
  · decide

/-- C9 (amended): the emitter is six sequential whole-string single
replacements, each replacing the first occurrence in the partially
substituted page, so token text inserted by an earlier substitution can
be consumed by a later pass (see the counterexample). When the template
holds the six tokens once each, in emit order, and neither the
interleaving segments nor the substituted values contain further `{`
characters, the result is the linear-pass substitution: each token
replaced exactly once, in place. -/
theorem GenerateRecoverHTML_linear
    (u0 u1 u2 u3 u4 u5 u6 sCSS wjs ajs ver gh : List Char) (wasm : List Nat)
    (h0 : ∀ c ∈ u0, c ≠ '{') (h1 : ∀ c ∈ u1, c ≠ '{')
    (h2 : ∀ c ∈ u2, c ≠ '{') (h3 : ∀ c ∈ u3, c ≠ '{')
    (h4 : ∀ c ∈ u4, c ≠ '{') (h5 : ∀ c ∈ u5, c ≠ '{')
    (h6 : ∀ c ∈ u6, c ≠ '{')
    (hs : ∀ c ∈ sCSS, c ≠ '{') (hw : ∀ c ∈ wjs, c ≠ '{')
    (ha : ∀ c ∈ ajs, c ≠ '{') (hv : ∀ c ∈ ver, c ≠ '{')
    (hg : ∀ c ∈ gh, c ≠ '{') :
    GenerateRecoverHTML
        (u0 ++ tokSTYLES ++ u1 ++ tokWASMEXEC ++ u2 ++ tokAPPJS ++ u3 ++
          tokWASMB64 ++ u4 ++ tokVERSION ++ u5 ++ tokGITHUB ++ u6)
        sCSS wjs ajs wasm ver gh =
      u0 ++ sCSS ++ u1 ++ wjs ++ u2 ++ ajs ++ u3 ++ b64EncodeStd wasm ++ u4 ++
        ver ++ u5 ++ gh ++ u6 := by
  have hmain := seqReplace_linear
    [((tokSTYLES, sCSS), u1), ((tokWASMEXEC, wjs), u2), ((tokAPPJS, ajs), u3),
     ((tokWASMB64, b64EncodeStd wasm), u4), ((tokVERSION, ver), u5),
     ((tokGITHUB, gh), u6)] u0 h0 (by
      intro it hit
      simp at hit
      rcases hit with rfl | rfl | rfl | rfl | rfl | rfl
      · exact ⟨rfl, show tokSTYLES ≠ [] from by decide, hs, h1⟩
      · exact ⟨rfl, show tokWASMEXEC ≠ [] from by decide, hw, h2⟩
      · exact ⟨rfl, show tokAPPJS ≠ [] from by decide, ha, h3⟩
      · exact ⟨rfl, show tokWASMB64 ≠ [] from by decide, b64EncodeStd_noBrace wasm, h4⟩
      · exact ⟨rfl, show tokVERSION ≠ [] from by decide, hv, h5⟩
      · exact ⟨rfl, show tokGITHUB ≠ [] from by decide, hg, h6⟩)
  · have htpl : mkTemplate u0
        [((tokSTYLES, sCSS), u1), ((tokWASMEXEC, wjs), u2), ((tokAPPJS, ajs), u3),
         ((tokWASMB64, b64EncodeStd wasm), u4), ((tokVERSION, ver), u5),
         ((tokGITHUB, gh), u6)] =
        u0 ++ tokSTYLES ++ u1 ++ tokWASMEXEC ++ u2 ++ tokAPPJS ++ u3 ++
          tokWASMB64 ++ u4 ++ tokVERSION ++ u5 ++ tokGITHUB ++ u6 := by
      simp [mkTemplate]
    have hres : mkResult u0
        [((tokSTYLES, sCSS), u1), ((tokWASMEXEC, wjs), u2), ((tokAPPJS, ajs), u3),
         ((tokWASMB64, b64EncodeStd wasm), u4), ((tokVERSION, ver), u5),
         ((tokGITHUB, gh), u6)] =
        u0 ++ sCSS ++ u1 ++ wjs ++ u2 ++ ajs ++ u3 ++ b64EncodeStd wasm ++ u4 ++
          ver ++ u5 ++ gh ++ u6 := by
      simp [mkResult]
    rw [htpl, hres] at hmain
    unfold GenerateRecoverHTML
    simpa [seqReplace] using hmain

theorem GenerateRecoverHTML_linear_witness :
    GenerateRecoverHTML
        (("<a>".data) ++ tokSTYLES ++ ("<b>".data) ++ tokWASMEXEC ++ ("<c>".data) ++
          tokAPPJS ++ ("<d>".data) ++ tokWASMB64 ++ ("<e>".data) ++ tokVERSION ++
          ("<f>".data) ++ tokGITHUB ++ ("<g>".data))
        ("s".data) ("w".data) ("a".data) [1, 7] ("v1".data) ("G".data) =
      ("<a>".data) ++ ("s".data) ++ ("<b>".data) ++ ("w".data) ++ ("<c>".data) ++
        ("a".data) ++ ("<d>".data) ++ b64EncodeStd [1, 7] ++ ("<e>".data) ++
        ("v1".data) ++ ("<f>".data) ++ ("G".data) ++ ("<g>".data) :=
  GenerateRecoverHTML_linear ("<a>".data) ("<b>".data) ("<c>".data) ("<d>".data)
    ("<e>".data) ("<f>".data) ("<g>".data) ("s".data) ("w".data) ("a".data)
    ("v1".data) ("G".data) [1, 7]
    (by decide) (by decide) (by decide) (by decide) (by decide) (by decide)
    (by decide) (by decide) (by decide) (by decide) (by decide) (by decide)

end Rememory
